import Mathlib

/-!
# demon.c: a pattern-scanning daemon

A shallow embedding of `src/demon.c` and the properties checked against it.

* C strings are lists of characters (`CStr`).
* The file system is seen only through the three calls the program makes on
  path strings: `opendir`/`readdir`, `stat` and `access` (structure `FS`). It
  does not change during a pass. `closedir` has no effect that is observed.
* The three `volatile sig_atomic_t` flags are fields of the process state.
  Signals arrive asynchronously and their handlers only set a flag (and log a
  line in verbose mode); the program can only notice them where it reads a
  flag, so a schedule `Nat → Pending` says which signals have been handled by
  the time of each such read (the reads are numbered by `clock`). A signal that
  arrives between two reads is handled, in the model, just before the later one.
* `syslog`, `kill`, `wait`, `sleep`, `fork`, `daemon` are recorded as events in a
  trace; time stamps are left out. The calls `opendir`, `stat` and `access` are
  recorded, with the path each one is given, in a second trace (`calls`).
* `scan_directory` recurses through whatever `stat` reports, so it takes a
  recursion budget and returns `none` when the budget is exhausted. On a finite
  tree a budget above the depth of the tree is enough (`pass_on_tree`,
  `pass_returns`).
* `sleep` returns early when the handler of any signal has run during it, as
  POSIX specifies; `wait` returns any one terminated child, blocks while
  children run and none has terminated, and fails at once with no child left.
-/

namespace Demon

/-! ## Constants -/

def DEFAULT_SCAN_INTERVAL : Nat := 60
def MAX_PATTERNS : Nat := 32
def MAX_PATH_LEN : Nat := 1024
def EXIT_FAILURE : Nat := 1
def R_OK : Nat := 4
def X_OK : Nat := 1

/-- A C string: the bytes before the terminating NUL. -/
abbrev CStr := List Char

/-- Signals the program handles or sends. -/
inductive Sig where
  | SIGUSR1
  | SIGUSR2
  | SIGCHLD
  deriving DecidableEq, Repr

/-- Everything the program writes or asks of the operating system, in order. -/
inductive Event where
  /-- The line written by `log_time` ("Current time: ..."). -/
  | time
  /-- The match event, "Znaleziono: path (wzorzec: pattern)". -/
  | found (path pattern : CStr)
  /-- The line "Brak dostępu: path" (verbose only). -/
  | noAccess (path : CStr)
  /-- The line "Porównanie: name z pattern" (verbose only). -/
  | compare (name pattern : CStr)
  /-- The line "SIGUSR1: restart skanowania" (verbose only). -/
  | usr1
  /-- The line "SIGUSR2: przerwanie skanowania" (verbose only). -/
  | usr2
  /-- The line "Potomek – rozpoczęcie skanowania" (verbose only). -/
  | childStart (pattern : CStr)
  /-- The line "Potomek – skanowanie przerwane" (verbose only). -/
  | childInterrupted (pattern : CStr)
  /-- The line "Potomek – restart skanowania" (verbose only). -/
  | childRestart (pattern : CStr)
  /-- The line "Potomek – uśpienie" (verbose only). -/
  | childSleep (pattern : CStr)
  /-- The line "Potomek – wybudzenie" (verbose only). -/
  | childWake (pattern : CStr)
  /-- A call `sleep(seconds)`; `cutShort` tells whether it returned early. -/
  | sleep (seconds : Nat) (cutShort : Bool)
  /-- A successful call `daemon(0, 0)`. -/
  | daemon
  /-- The line "Demon uruchomiony. Tryb verbose: ...". -/
  | started (verbose : Bool)
  /-- A call `fork()` that returned `pid > 0` in the supervisor; the child
  runs `child_process(pattern)`. -/
  | fork (pid : Int) (pattern : CStr)
  /-- The line "Błąd fork()". -/
  | forkError
  /-- The line "Proces nadrzędny: przekazuję SIGUSR1/SIGUSR2 dzieciom". -/
  | relaying (sig : Sig)
  /-- A call `kill(pid, sig)`. -/
  | kill (pid : Int) (sig : Sig)
  /-- A call `wait(&status)` that reaped `pid`, and the line "Proces potomny
  pid zakończył się (kod code)". -/
  | reaped (pid : Int) (code : Nat)
  /-- A call `wait(&status)` that failed, and the line "Proces potomny -1
  zakończył się (kod code)" with a code read from the unset `status`. -/
  | waitFailed (code : Nat)
  deriving DecidableEq, Repr

/-- The file system as the program sees it, through path strings. -/
structure FS where
  /-- The names `readdir` yields, in order, when `opendir` succeeds. -/
  opendir : CStr → Option (List CStr)
  /-- The result `S_ISDIR(st.st_mode)` when `stat` returns 0. -/
  stat : CStr → Option Bool
  /-- Whether `access(path, mode) == 0`. -/
  access : CStr → Nat → Bool

/-- Signals handled between two consecutive points of a worker's run. A worker
has handlers for three signals: it installs those of SIGUSR1 and SIGUSR2
itself and inherits that of SIGCHLD, which `main` installs before `fork`. -/
structure Pending where
  usr1 : Bool
  usr2 : Bool
  chld : Bool
  deriving DecidableEq, Repr

/-- The schedule on which no signal ever arrives. -/
def noSignals : Nat → Pending := fun _ => ⟨false, false, false⟩

/-- A call the scanner makes on a path. -/
inductive Call where
  /-- A call `opendir(path)`. -/
  | opendir (path : CStr)
  /-- A call `stat(path, &st)`. -/
  | stat (path : CStr)
  /-- A call `access(path, mode)`. -/
  | access (path : CStr) (mode : Nat)
  deriving DecidableEq, Repr

/-- The globals a worker process uses, the trace of what it has written and
asked for, and the calls it has made on paths. -/
structure Proc where
  restart_scan : Bool
  stop_scan : Bool
  /-- Number of points passed so far at which pending signals were handled. -/
  clock : Nat
  log : List Event
  calls : List Call
  deriving DecidableEq, Repr

/-! ## Library calls -/

/-- The call `strstr(haystack, needle) != NULL`. -/
def strstr : CStr → CStr → Bool
  | [], needle => needle.isEmpty
  | c :: hay, needle => needle.isPrefixOf (c :: hay) || strstr hay needle

/-- The call `snprintf(full_path, MAX_PATH_LEN, "%s/%s", dir_path, d_name)`:
at most `MAX_PATH_LEN - 1` bytes are stored. -/
def snprintf_path (dir_path d_name : CStr) : CStr :=
  (dir_path ++ '/' :: d_name).take (MAX_PATH_LEN - 1)

def syslog (e : Event) (st : Proc) : Proc :=
  { st with log := st.log ++ [e] }

/-- Records a call made on a path. -/
def called (c : Call) (st : Proc) : Proc :=
  { st with calls := st.calls ++ [c] }

/-! ## The program -/

def log_time (st : Proc) : Proc :=
  syslog Event.time st

def has_access (fs : FS) (path : CStr) (is_dir : Bool) : Bool :=
  fs.access path (R_OK ||| (if is_dir then X_OK else 0))

def sigusr1_handler (verbose : Bool) (st : Proc) : Proc :=
  let st := { st with restart_scan := true }
  if verbose then syslog Event.usr1 st else st

def sigusr2_handler (verbose : Bool) (st : Proc) : Proc :=
  let st := { st with stop_scan := true }
  if verbose then syslog Event.usr2 st else st

/-- A point of the run, such as a read of the flags: the handlers of the
signals that arrived since the previous point have run. The handler of SIGCHLD
sets `child_terminated`, which a worker never reads and its state does not
carry. -/
def deliver (verbose : Bool) (sched : Nat → Pending) (st : Proc) : Proc :=
  let p := sched st.clock
  let st := if p.usr1 then sigusr1_handler verbose st else st
  let st := if p.usr2 then sigusr2_handler verbose st else st
  { st with clock := st.clock + 1 }

/-- The `while` loop of `scan_directory` over the names `readdir` still has to
yield; `recurse` is the recursive call. -/
def scan_entries (fs : FS) (verbose : Bool) (sched : Nat → Pending) (pattern : CStr)
    (recurse : CStr → Proc → Option Proc) (dir_path : CStr) :
    List CStr → Proc → Option Proc
  | [], st => some st
  | d_name :: rest, st =>
    let st := deliver verbose sched st
    if st.stop_scan || st.restart_scan then some st
    else if d_name = ['.'] || d_name = ['.', '.'] then
      scan_entries fs verbose sched pattern recurse dir_path rest st
    else
      let full_path := snprintf_path dir_path d_name
      let st := called (Call.stat full_path) st
      match fs.stat full_path with
      | none => scan_entries fs verbose sched pattern recurse dir_path rest st
      | some is_dir =>
        let st := called (Call.access full_path (R_OK ||| (if is_dir then X_OK else 0))) st
        if !has_access fs full_path is_dir then
          let st := if verbose then syslog (Event.noAccess full_path) st else st
          scan_entries fs verbose sched pattern recurse dir_path rest st
        else
          let st :=
            if strstr d_name pattern then
              syslog (Event.found full_path pattern) (log_time st)
            else if verbose then syslog (Event.compare d_name pattern) st
            else st
          if is_dir then
            (recurse full_path st).bind
              (scan_entries fs verbose sched pattern recurse dir_path rest)
          else scan_entries fs verbose sched pattern recurse dir_path rest st

/-- The function `scan_directory(dir_path, pattern)`; the first argument bounds the
recursion depth. -/
def scan_directory (fs : FS) (verbose : Bool) (sched : Nat → Pending) (pattern : CStr) :
    Nat → CStr → Proc → Option Proc
  | 0, _, _ => none
  | fuel + 1, dir_path, st =>
    let st := deliver verbose sched st
    if st.stop_scan then some st
    else
      let st := called (Call.opendir dir_path) st
      match fs.opendir dir_path with
      | none => some st
      | some entries =>
        scan_entries fs verbose sched pattern
          (scan_directory fs verbose sched pattern fuel) dir_path entries st

/-- The call `sleep(seconds)`: the process is suspended until the time has
elapsed or the handler of a signal has run, whichever comes first. The signals
scheduled for this point are the ones that arrive during the sleep; any of
the three handled signals ends it early. -/
def sleep (verbose : Bool) (sched : Nat → Pending) (seconds : Nat) (st : Proc) : Proc :=
  let p := sched st.clock
  syslog (Event.sleep seconds (p.usr1 || p.usr2 || p.chld)) (deliver verbose sched st)

/-- Lines 120-124 of `child_process`: the start of one turn of its loop. -/
def child_begin (verbose : Bool) (pattern : CStr) (st : Proc) : Proc :=
  let st := if verbose then syslog (Event.childStart pattern) st else st
  let st := { st with stop_scan := false }
  { st with restart_scan := false }

/-- Lines 127-141 of `child_process`: what follows the scan in one turn of its
loop. The flags are read here, after the signals that arrived since the last
read inside the scan were handled. A signal that arrives after the test of
`restart_scan` and before `sleep` is entered is handled without cutting the
sleep: that is the point passed just before the call. -/
def child_finish (verbose : Bool) (sched : Nat → Pending) (pattern : CStr) (st : Proc) : Proc :=
  let st := deliver verbose sched st
  let st := if st.stop_scan && verbose then syslog (Event.childInterrupted pattern) st else st
  if st.restart_scan then
    if verbose then syslog (Event.childRestart pattern) st else st
  else
    let st := if verbose then syslog (Event.childSleep pattern) st else st
    let st := deliver verbose sched st
    let st := sleep verbose sched DEFAULT_SCAN_INTERVAL st
    if verbose then syslog (Event.childWake pattern) st else st

/-- One turn of the `while (1)` loop of `child_process`. -/
def child_pass (fs : FS) (verbose : Bool) (sched : Nat → Pending) (fuel : Nat)
    (pattern : CStr) (st : Proc) : Option Proc :=
  (scan_directory fs verbose sched pattern fuel ['/'] (child_begin verbose pattern st)).map
    (child_finish verbose sched pattern)

/-- The function `child_process(pattern)`, run for the given number of turns of
its endless loop. -/
def child_process (fs : FS) (verbose : Bool) (sched : Nat → Pending) (fuel : Nat)
    (pattern : CStr) : Nat → Proc → Option Proc
  | 0, st => some st
  | turns + 1, st =>
    (child_pass fs verbose sched fuel pattern st).bind
      (child_process fs verbose sched fuel pattern turns)

/-- The supervisor: the globals of `main`, its local `scan_interval`, and what
the operating system knows of its children: those running, and those that have
terminated and are not yet waited for, with their exit codes. -/
structure Sup extends Proc where
  verbose : Bool
  scan_interval : Nat
  child_terminated : Bool
  num_patterns : Nat
  children : List Int
  live : List Int
  zombies : List (Int × Nat)
  deriving DecidableEq, Repr

def sigchld_handler (s : Sup) : Sup :=
  { s with child_terminated := true }

/-- The call `kill(pid, sig)`. -/
def kill (pid : Int) (sig : Sig) (s : Sup) : Sup :=
  { s with log := s.log ++ [Event.kill pid sig] }

/-- The loop of `broadcast_signal` from index `i` on, `n` turns left. -/
def broadcast_loop (sig : Sig) : Nat → Nat → Sup → Sup
  | 0, _, s => s
  | n + 1, i, s =>
    let s := if s.children.getD i 0 > 0 then kill (s.children.getD i 0) sig s else s
    broadcast_loop sig n (i + 1) s

def broadcast_signal (sig : Sig) (s : Sup) : Sup :=
  broadcast_loop sig s.num_patterns 0 s

/-- What `main` has parsed from the command line. -/
structure Config where
  verbose : Bool
  scan_interval : Nat
  patterns : List CStr
  deriving DecidableEq, Repr

def isdigit (c : Char) : Bool :=
  decide ('0' ≤ c ∧ c ≤ '9')

/-- Leading decimal digits of `s`, most significant first, onto `acc`. -/
def atoi_digits : CStr → Nat → Nat
  | [], acc => acc
  | c :: s, acc => if isdigit c then atoi_digits s (10 * acc + (c.toNat - 48)) else acc

/-- The call `atoi(s)` for a string that starts with a digit (the only use in
`main`), for values that fit an `int`. -/
def atoi (s : CStr) : Nat :=
  atoi_digits s 0

/-- The argument loop of `main` (lines 169-188); an error is the exit status. -/
def parse_loop : List CStr → Config → Except Nat Config
  | [], c => Except.ok c
  | arg :: rest, c =>
    if arg = ['-', 'v'] then parse_loop rest { c with verbose := true }
    else if isdigit (arg.headD (Char.ofNat 0)) then
      parse_loop rest { c with scan_interval := atoi arg }
    else if c.patterns.length ≥ MAX_PATTERNS then Except.error EXIT_FAILURE
    else parse_loop rest { c with patterns := c.patterns ++ [arg] }

/-- Lines 159-194 of `main`: the checks made before the process goes to the
background. -/
def parse_args (argv : List CStr) : Except Nat Config :=
  if argv.length < 2 then Except.error EXIT_FAILURE
  else
    match parse_loop (argv.drop 1) ⟨false, DEFAULT_SCAN_INTERVAL, []⟩ with
    | Except.error status => Except.error status
    | Except.ok c => if c.patterns.length = 0 then Except.error EXIT_FAILURE else Except.ok c

/-- How the start of `main` ends for the process running it. -/
inductive Start where
  /-- The call `exit(status)`. -/
  | exited (status : Nat) (s : Sup)
  /-- This process is a forked child and runs `child_process(pattern)`. -/
  | worker (pattern : CStr) (s : Sup)
  /-- The supervisor loop is reached. -/
  | supervising (s : Sup)
  deriving DecidableEq, Repr

/-- The globals as the program starts: all zero. -/
def initial : Sup :=
  { restart_scan := false, stop_scan := false, clock := 0, log := [], calls := [],
    verbose := false, scan_interval := DEFAULT_SCAN_INTERVAL, child_terminated := false,
    num_patterns := 0, children := List.replicate MAX_PATTERNS 0, live := [], zombies := [] }

/-- The loop creating the children (lines 212-229) from index `i` on, over the
patterns not yet served; `fork i` is what the call of turn `i` returns. -/
def spawn_loop (fork : Nat → Int) : List CStr → Nat → Sup → Start
  | [], _, s => Start.supervising s
  | pattern :: rest, i, s =>
    let pid := fork i
    if pid = 0 then Start.worker pattern s
    else if pid > 0 then
      spawn_loop fork rest (i + 1)
        { s with
          children := s.children.set i pid, live := s.live ++ [pid],
          log := s.log ++ [Event.fork pid pattern] }
    else Start.exited EXIT_FAILURE { s with log := s.log ++ [Event.forkError] }

/-- The function `main` up to the supervisor loop. `daemon_ok` tells whether
`daemon(0, 0)` succeeds. -/
def main_start (daemon_ok : Bool) (fork : Nat → Int) (argv : List CStr) : Start :=
  match parse_args argv with
  | Except.error status => Start.exited status initial
  | Except.ok c =>
    if !daemon_ok then Start.exited EXIT_FAILURE initial
    else
      let s : Sup :=
        { initial with
          verbose := c.verbose, scan_interval := c.scan_interval,
          num_patterns := c.patterns.length,
          log := [Event.daemon, Event.started c.verbose] }
      spawn_loop fork c.patterns 0 s

/-- What a call `wait(&status)` does. -/
inductive Waited where
  /-- It returns the process id of a terminated child, which is reaped, and
  sets `status`. -/
  | child (pid : Int) (code : Nat) (s : Sup)
  /-- It fails at once, returning -1 and leaving `status` unset: no child is
  left. -/
  | noChild
  /-- It does not return: children run and none has terminated. -/
  | blocks
  deriving DecidableEq, Repr

/-- The call `wait(&status)`. Any one of the terminated children may be the one
returned: `pick` says which. -/
def wait (pick : Nat) (s : Sup) : Waited :=
  match s.zombies with
  | z :: zs =>
    let chosen := (z :: zs).getD (pick % (zs.length + 1)) z
    Waited.child chosen.1 chosen.2
      { s with zombies := (z :: zs).eraseIdx (pick % (zs.length + 1)) }
  | [] => if s.live.isEmpty then Waited.noChild else Waited.blocks

/-- How a turn of the supervisor loop ends. -/
inductive Turn where
  /-- The turn ran to its end, in state `s`. -/
  | done (s : Sup)
  /-- The turn is suspended in `wait`, in state `s`. -/
  | blocked (s : Sup)
  deriving DecidableEq, Repr

/-- The state a turn has reached. -/
def Turn.state : Turn → Sup
  | Turn.done s => s
  | Turn.blocked s => s

/-- The state after a turn that ran to its end. -/
def Turn.completed : Turn → Option Sup
  | Turn.done s => some s
  | Turn.blocked _ => none

/-- Lines 234-245 of the supervisor loop: the two relays. -/
def relay (s : Sup) : Sup :=
  let s :=
    if s.restart_scan then
      let s := { s with log := s.log ++ [Event.relaying Sig.SIGUSR1] }
      let s := broadcast_signal Sig.SIGUSR1 s
      { s with restart_scan := false }
    else s
  if s.stop_scan then
    let s := { s with log := s.log ++ [Event.relaying Sig.SIGUSR2] }
    let s := broadcast_signal Sig.SIGUSR2 s
    { s with stop_scan := false }
  else s

/-- Lines 247-253 of the supervisor loop: reaping. `junk` is the exit code read
from `status` when `wait` failed and left it unset. -/
def reap (pick junk : Nat) (s : Sup) : Turn :=
  if s.child_terminated then
    match wait pick s with
    | Waited.child pid code s =>
      Turn.done { s with log := s.log ++ [Event.reaped pid code], child_terminated := false }
    | Waited.noChild =>
      Turn.done { s with log := s.log ++ [Event.waitFailed junk], child_terminated := false }
    | Waited.blocks => Turn.blocked s
  else Turn.done s

/-- One turn of the supervisor loop (lines 234-255) during which no signal
arrives. -/
def tick (pick junk : Nat) (s : Sup) : Turn :=
  match reap pick junk (relay s) with
  | Turn.done s => Turn.done { s with log := s.log ++ [Event.sleep s.scan_interval false] }
  | Turn.blocked s => Turn.blocked s

/-- Turns of the supervisor loop with nothing arriving in between, one for each
pair of what `wait` picks and what an unset `status` holds. -/
def ticks : List (Nat × Nat) → Sup → Turn
  | [], s => Turn.done s
  | (pick, junk) :: rest, s =>
    match tick pick junk s with
    | Turn.done t => ticks rest t
    | Turn.blocked t => Turn.blocked t

/-- A child terminates: it stays a zombie until waited for, and SIGCHLD is
delivered to the supervisor. -/
def child_exit (pid : Int) (code : Nat) (s : Sup) : Sup :=
  sigchld_handler { s with live := s.live.erase pid, zombies := s.zombies ++ [(pid, code)] }

/-! ## File system trees

A finite tree is what the claims quantify over. A directory listing is a
`Forest`: its entries in `readdir` order, each with what `stat`, `access` and
`opendir` answer for it and, for a directory, the listing below it. -/

/-- What the system calls answer for one directory entry. -/
structure Attr where
  /-- The base name (`d_name`). -/
  name : CStr
  /-- Whether `stat` succeeds, and if so whether the entry is a directory. -/
  stat : Option Bool
  /-- Read access: `access(path, R_OK) == 0`. -/
  r : Bool
  /-- Search access, for a directory. -/
  x : Bool
  /-- Whether `opendir` succeeds, for a directory. -/
  opens : Bool
  deriving DecidableEq, Repr

/-- A directory listing: empty, or a first entry with the listing below it and
the entries that follow it. -/
inductive Forest where
  | nil
  | entry (a : Attr) (kids : Forest) (rest : Forest)
  deriving Repr

def isDot (name : CStr) : Bool :=
  name = ['.'] || name = ['.', '.']

/-- The names `readdir` yields for a listing. -/
def Forest.names : Forest → List CStr
  | Forest.nil => []
  | Forest.entry a _ rest => a.name :: rest.names

/-- Number of directory levels of a listing. -/
def Forest.depth : Forest → Nat
  | Forest.nil => 0
  | Forest.entry _ kids rest => max (kids.depth + 1) rest.depth

/-- The names of a chain of entries, each preceded by a slash. -/
def joinPath : List CStr → CStr
  | [] => []
  | name :: names => '/' :: name ++ joinPath names

/-- The path string the scanner builds for the entry reached from `root` through
the chain of names: `root`, then a slash and a name per step, cut to what the
buffer holds. -/
def pathOf (root : CStr) (chain : List CStr) : CStr :=
  (root ++ joinPath chain).take (MAX_PATH_LEN - 1)

/-- The entry is a directory that passes the access check with `R_OK | X_OK`. -/
def Attr.traversable (a : Attr) : Bool :=
  a.stat = some true && a.r && a.x

/-- The entry passes `stat` and the access check made for its kind: read access,
and search access as well for a directory. -/
def Attr.passes (a : Attr) : Bool :=
  match a.stat with
  | none => false
  | some is_dir => a.r && (!is_dir || a.x)

/-- The file system answers, at the paths the scanner builds from `root`, what
the listing says: for every entry other than the two dot names, `stat` and
`access`; for a directory the scanner enters, `opendir` and the same below. -/
def sees (fs : FS) (root : CStr) (chain : List CStr) : Forest → Bool
  | Forest.nil => true
  | Forest.entry a kids rest =>
    (isDot a.name ||
      (decide (fs.stat (pathOf root (chain ++ [a.name])) = a.stat) &&
        decide (fs.access (pathOf root (chain ++ [a.name])) R_OK = a.r) &&
        (!(a.stat = some true) ||
          decide (fs.access (pathOf root (chain ++ [a.name])) (R_OK ||| X_OK) = (a.r && a.x))) &&
        (!a.traversable ||
          (decide (fs.opendir (pathOf root (chain ++ [a.name])) =
              if a.opens then some kids.names else none) &&
            (!a.opens || sees fs root (chain ++ [a.name]) kids))))) &&
      sees fs root chain rest

/-- The file system shows the tree whose top listing is `top` at the root "/". -/
def Presents (fs : FS) (top : Forest) : Prop :=
  fs.opendir ['/'] = some top.names ∧ sees fs ['/'] [] top = true

/-- Every entry of the tree, with the chain of names leading to it. -/
def Forest.all (chain : List CStr) : Forest → List (List CStr × Attr)
  | Forest.nil => []
  | Forest.entry a kids rest =>
    if isDot a.name then Forest.all chain rest
    else (chain ++ [a.name], a) :: (Forest.all (chain ++ [a.name]) kids ++ Forest.all chain rest)

/-- The entries that can be reached from the top through directories that pass
`stat` and the access check and can be opened, with the chain of names leading
to each. -/
def Forest.reachable (chain : List CStr) : Forest → List (List CStr × Attr)
  | Forest.nil => []
  | Forest.entry a kids rest =>
    if isDot a.name then Forest.reachable chain rest
    else
      (chain ++ [a.name], a) ::
        ((if a.traversable && a.opens then Forest.reachable (chain ++ [a.name]) kids else []) ++
          Forest.reachable chain rest)

/-- The entries the scanner is expected to report for a pattern: the reachable
entries that pass the check and whose name holds the pattern, in order, each
with the path built for it. -/
def Forest.reported (root pattern : CStr) (chain : List CStr) (listing : Forest) :
    List (CStr × CStr) :=
  ((listing.reachable chain).filter fun e => e.2.passes && strstr e.2.name pattern).map
    fun e => (pathOf root e.1, pattern)

/-- The paths the scanner is expected to give to `stat`: one for each entry
reached, in order. -/
def Forest.statPaths (root : CStr) (chain : List CStr) (listing : Forest) : List CStr :=
  (listing.reachable chain).map fun e => pathOf root e.1

/-- The access checks the scanner is expected to make: for each entry reached
for which `stat` succeeds, its path with `R_OK`, and `X_OK` as well for a
directory. -/
def Forest.accessChecks (root : CStr) (chain : List CStr) (listing : Forest) :
    List (CStr × Nat) :=
  (listing.reachable chain).filterMap fun e =>
    e.2.stat.map fun is_dir => (pathOf root e.1, R_OK ||| (if is_dir then X_OK else 0))

/-- The paths of the `stat` calls among the calls made. -/
def statCalls : List Call → List CStr
  | [] => []
  | Call.stat path :: cs => path :: statCalls cs
  | _ :: cs => statCalls cs

/-- The paths and modes of the `access` calls among the calls made. -/
def accessCalls : List Call → List (CStr × Nat)
  | [] => []
  | Call.access path mode :: cs => (path, mode) :: accessCalls cs
  | _ :: cs => accessCalls cs

/-- The paths of the `opendir` calls among the calls made. -/
def opendirCalls : List Call → List CStr
  | [] => []
  | Call.opendir path :: cs => path :: opendirCalls cs
  | _ :: cs => opendirCalls cs

/-- The match events of a trace: path and pattern of each. -/
def matchEvents : List Event → List (CStr × CStr)
  | [] => []
  | Event.found path pattern :: es => (path, pattern) :: matchEvents es
  | _ :: es => matchEvents es

/-- The `sleep` calls of a trace: the seconds asked for in each. -/
def sleepCalls : List Event → List Nat
  | [] => []
  | Event.sleep seconds _ :: es => seconds :: sleepCalls es
  | _ :: es => sleepCalls es

/-- The `kill` calls of a trace. -/
def killCalls : List Event → List (Int × Sig)
  | [] => []
  | Event.kill pid sig :: es => (pid, sig) :: killCalls es
  | _ :: es => killCalls es

/-- The children reaped in a trace. -/
def reapedPids : List Event → List Int
  | [] => []
  | Event.reaped pid _ :: es => pid :: reapedPids es
  | _ :: es => reapedPids es

/-- The children created in a trace, with the pattern each one serves. -/
def forkCalls : List Event → List (Int × CStr)
  | [] => []
  | Event.fork pid pattern :: es => (pid, pattern) :: forkCalls es
  | _ :: es => forkCalls es

/-- From `st` to `r` the flags stay clear, the match events `ms` are added, and
`stat` is called on the paths `ss` and `access` with the paths and modes `cs`. -/
structure Grows (st r : Proc) (ms : List (CStr × CStr)) (ss : List CStr)
    (cs : List (CStr × Nat)) : Prop where
  stop : r.stop_scan = false
  restart : r.restart_scan = false
  log : matchEvents r.log = matchEvents st.log ++ ms
  stats : statCalls r.calls = statCalls st.calls ++ ss
  checks : accessCalls r.calls = accessCalls st.calls ++ cs

/-- The same state with the events `earlier` put in front of its trace and the
calls `before` in front of its calls. -/
def withBefore (earlier : List Event) (before : List Call) (st : Proc) : Proc :=
  { st with log := earlier ++ st.log, calls := before ++ st.calls }

/-- The same state with the events `earlier` put in front of its trace. -/
def withEarlier (earlier : List Event) (st : Proc) : Proc :=
  { st with log := earlier ++ st.log }

/-- One turn of the loop of `scan_directory` after its condition has let the
entry `d_name` through: the state when the turn ends. -/
def scan_entry (fs : FS) (verbose : Bool) (pattern : CStr)
    (recurse : CStr → Proc → Option Proc) (dir_path d_name : CStr) (st : Proc) : Option Proc :=
  if isDot d_name then some st
  else
    let st := called (Call.stat (snprintf_path dir_path d_name)) st
    match fs.stat (snprintf_path dir_path d_name) with
    | none => some st
    | some is_dir =>
      let st := called (Call.access (snprintf_path dir_path d_name)
        (R_OK ||| (if is_dir then X_OK else 0))) st
      if !has_access fs (snprintf_path dir_path d_name) is_dir then
        some (if verbose then syslog (Event.noAccess (snprintf_path dir_path d_name)) st else st)
      else
        let st :=
          if strstr d_name pattern then
            syslog (Event.found (snprintf_path dir_path d_name) pattern) (log_time st)
          else if verbose then syslog (Event.compare d_name pattern) st
          else st
        if is_dir then recurse (snprintf_path dir_path d_name) st else some st

/-- One of the two flags the loop of `scan_directory` tests is set. -/
def Proc.flagged (st : Proc) : Bool :=
  st.stop_scan || st.restart_scan

/-- How the state `cut` an interrupted run ends in relates to the state `full`
of the same run without signals: either nothing was noticed and they are the
same, or a flag is set and the match events of `cut` are the first ones of
`full`. -/
def CutOf (cut full : Proc) : Prop :=
  (cut = full ∧ cut.flagged = false) ∨
    (cut.flagged = true ∧ matchEvents cut.log <+: matchEvents full.log)

/-- A worker state with both flags clear and an empty trace. -/
def fresh : Proc :=
  { restart_scan := false, stop_scan := false, clock := 0, log := [], calls := [] }

/-- An argument the loop of `main` takes as a pattern: it is not "-v" and does
not start with a digit. -/
def isPatternArg (arg : CStr) : Bool :=
  !(decide (arg = ['-', 'v'])) && !(isdigit (arg.headD (Char.ofNat 0)))

/-- The patterns of a command line: the arguments after the program name that
the loop of `main` takes as patterns, in the order given. -/
def patternArgs (argv : List CStr) : List CStr :=
  (argv.drop 1).filter isPatternArg

/-- The process ids `broadcast_signal` sends to: the positive ones among the
first `num_patterns` slots of `children`. -/
def Sup.targets (s : Sup) : List Int :=
  ((List.range s.num_patterns).map fun i => s.children.getD i 0).filter fun pid => pid > 0

/-! ## Sample data -/

/-- The directory entry `tmp` of the scenario. -/
def sampleTmp : Attr :=
  ⟨"tmp".toList, some true, true, true, true⟩

/-- The listing of `/a/tmp` in the scenario. -/
def sampleTmpKids : Forest :=
  Forest.entry ⟨".".toList, some true, true, true, true⟩ Forest.nil <|
  Forest.entry ⟨"..".toList, some true, true, true, true⟩ Forest.nil <|
  Forest.entry ⟨"x".toList, some false, true, false, false⟩ Forest.nil Forest.nil

/-- The tree of the scenario: `/a/app.log` and `/a/tmp/x`, everything
accessible. -/
def sampleTree : Forest :=
  Forest.entry ⟨".".toList, some true, true, true, true⟩ Forest.nil <|
  Forest.entry ⟨"..".toList, some true, true, true, true⟩ Forest.nil <|
  Forest.entry ⟨"a".toList, some true, true, true, true⟩
    (Forest.entry ⟨".".toList, some true, true, true, true⟩ Forest.nil <|
     Forest.entry ⟨"..".toList, some true, true, true, true⟩ Forest.nil <|
     Forest.entry ⟨"app.log".toList, some false, true, false, false⟩ Forest.nil <|
     Forest.entry sampleTmp sampleTmpKids Forest.nil)
    Forest.nil

/-- A file system showing `sampleTree`. -/
def sampleFS : FS where
  opendir path :=
    if path = "/".toList then some [".".toList, "..".toList, "a".toList]
    else if path = "//a".toList then
      some [".".toList, "..".toList, "app.log".toList, "tmp".toList]
    else if path = "//a/tmp".toList then some [".".toList, "..".toList, "x".toList]
    else none
  stat path :=
    if path = "//a".toList ∨ path = "//a/tmp".toList then some true
    else if path = "//a/app.log".toList ∨ path = "//a/tmp/x".toList then some false
    else none
  access path _ :=
    decide (path = "//a".toList ∨ path = "//a/tmp".toList ∨ path = "//a/app.log".toList ∨
      path = "//a/tmp/x".toList)

/-- A tree whose only entry is a directory `tmp` that may be read but not
searched (mode `r--`). -/
def lockedTree : Forest :=
  Forest.entry ⟨"tmp".toList, some true, true, false, false⟩ Forest.nil Forest.nil

/-- A file system showing `lockedTree`. -/
def lockedFS : FS where
  opendir path := if path = "/".toList then some ["tmp".toList] else none
  stat path := if path = "//tmp".toList then some true else none
  access path mode := decide (path = "//tmp".toList ∧ mode = R_OK)

/-- The supervisor state when the start of `main` reaches the supervisor loop. -/
def Start.supervisor : Start → Option Sup
  | Start.supervising s => some s
  | _ => none

/-- Process ids for the children: 101, 102, ... -/
def samplePids : Nat → Int :=
  fun i => 101 + i

/-- The supervisor after the start on `demon log tmp` with children 101 and
102. -/
def sampleSup : Sup :=
  { initial with
    num_patterns := 2, children := 101 :: 102 :: List.replicate 30 0, live := [101, 102],
    log := [Event.daemon, Event.started false, Event.fork 101 "log".toList,
      Event.fork 102 "tmp".toList] }

/-- A schedule with one signal, handled before the read numbered `t`. -/
def signalAt (t : Nat) (p : Pending) : Nat → Pending :=
  fun n => if n = t then p else ⟨false, false, false⟩

/-! ## Auxiliary facts -/

theorem deliver_noSignals (verbose : Bool) (st : Proc) :
    deliver verbose noSignals st = { st with clock := st.clock + 1 } := by
  simp [deliver, noSignals]

theorem matchEvents_append (xs ys : List Event) :
    matchEvents (xs ++ ys) = matchEvents xs ++ matchEvents ys := by
  induction xs with
  | nil => rfl
  | cons e es ih => cases e <;> simp [matchEvents, ih]

theorem take_take_append (k : Nat) (xs ys : List Char) :
    ((xs.take k) ++ ys).take k = (xs ++ ys).take k := by
  rcases Nat.lt_or_ge k xs.length with h | h
  · rw [List.take_append_of_le_length (by simp; omega), List.take_append_of_le_length (by omega)]
    simp
  · rw [List.take_of_length_le h]

theorem joinPath_append (xs ys : List CStr) :
    joinPath (xs ++ ys) = joinPath xs ++ joinPath ys := by
  induction xs with
  | nil => rfl
  | cons x xs ih => simp [joinPath, ih]

theorem snprintf_pathOf (root : CStr) (chain : List CStr) (name : CStr) :
    snprintf_path (pathOf root chain) name = pathOf root (chain ++ [name]) := by
  unfold snprintf_path pathOf
  rw [take_take_append, joinPath_append]
  simp [joinPath]

@[simp] theorem syslog_stop (e : Event) (st : Proc) : (syslog e st).stop_scan = st.stop_scan := rfl

@[simp] theorem syslog_restart (e : Event) (st : Proc) :
    (syslog e st).restart_scan = st.restart_scan := rfl

@[simp] theorem syslog_clock (e : Event) (st : Proc) : (syslog e st).clock = st.clock := rfl

@[simp] theorem syslog_log (e : Event) (st : Proc) : (syslog e st).log = st.log ++ [e] := rfl

@[simp] theorem log_time_eq (st : Proc) : log_time st = syslog Event.time st := rfl

@[simp] theorem quiet_stop (verbose : Bool) (st : Proc) :
    (deliver verbose noSignals st).stop_scan = st.stop_scan := by
  simp [deliver_noSignals]

@[simp] theorem quiet_restart (verbose : Bool) (st : Proc) :
    (deliver verbose noSignals st).restart_scan = st.restart_scan := by
  simp [deliver_noSignals]

@[simp] theorem quiet_log (verbose : Bool) (st : Proc) :
    (deliver verbose noSignals st).log = st.log := by
  simp [deliver_noSignals]

/-- The loop, one entry at a time. -/
theorem scan_entries_cons (fs : FS) (verbose : Bool) (sched : Nat → Pending) (pattern : CStr)
    (recurse : CStr → Proc → Option Proc) (dir_path d_name : CStr) (rest : List CStr)
    (st : Proc) :
    scan_entries fs verbose sched pattern recurse dir_path (d_name :: rest) st =
      if (deliver verbose sched st).flagged then some (deliver verbose sched st)
      else (scan_entry fs verbose pattern recurse dir_path d_name (deliver verbose sched st)).bind
        (scan_entries fs verbose sched pattern recurse dir_path rest) := by
  rw [scan_entries]
  generalize deliver verbose sched st = st1
  simp only [scan_entry, Proc.flagged, isDot]
  by_cases hf : (st1.stop_scan || st1.restart_scan) = true
  · simp [hf]
  · simp only [hf, if_false]
    by_cases hd : (decide (d_name = ['.']) || decide (d_name = ['.', '.'])) = true
    · simp [hd]
    · simp only [hd, if_false]
      cases fs.stat (snprintf_path dir_path d_name) with
      | none => simp
      | some is_dir =>
        simp only []
        by_cases ha : (!has_access fs (snprintf_path dir_path d_name) is_dir) = true
        · simp [ha]
        · simp only [ha, if_false]
          cases is_dir <;> simp

@[simp] theorem called_stop (c : Call) (st : Proc) : (called c st).stop_scan = st.stop_scan := rfl

@[simp] theorem called_restart (c : Call) (st : Proc) :
    (called c st).restart_scan = st.restart_scan := rfl

@[simp] theorem called_clock (c : Call) (st : Proc) : (called c st).clock = st.clock := rfl

@[simp] theorem called_log (c : Call) (st : Proc) : (called c st).log = st.log := rfl

@[simp] theorem called_calls (c : Call) (st : Proc) : (called c st).calls = st.calls ++ [c] := rfl

@[simp] theorem syslog_calls (e : Event) (st : Proc) : (syslog e st).calls = st.calls := rfl

@[simp] theorem quiet_calls (verbose : Bool) (st : Proc) :
    (deliver verbose noSignals st).calls = st.calls := by
  simp [deliver_noSignals]

theorem statCalls_append (xs ys : List Call) :
    statCalls (xs ++ ys) = statCalls xs ++ statCalls ys := by
  induction xs with
  | nil => rfl
  | cons c cs ih => cases c <;> simp [statCalls, ih]

theorem accessCalls_append (xs ys : List Call) :
    accessCalls (xs ++ ys) = accessCalls xs ++ accessCalls ys := by
  induction xs with
  | nil => rfl
  | cons c cs ih => cases c <;> simp [accessCalls, ih]

theorem Grows.same (st : Proc) (hs : st.stop_scan = false) (hr : st.restart_scan = false) :
    Grows st st [] [] [] :=
  ⟨hs, hr, by simp, by simp, by simp⟩

theorem Grows.then {st mid r : Proc} {m1 m2 : List (CStr × CStr)} {s1 s2 : List CStr}
    {c1 c2 : List (CStr × Nat)} (h1 : Grows st mid m1 s1 c1) (h2 : Grows mid r m2 s2 c2) :
    Grows st r (m1 ++ m2) (s1 ++ s2) (c1 ++ c2) :=
  ⟨h2.stop, h2.restart, by rw [h2.log, h1.log, List.append_assoc],
    by rw [h2.stats, h1.stats, List.append_assoc],
    by rw [h2.checks, h1.checks, List.append_assoc]⟩

theorem Grows.quiet (verbose : Bool) (st : Proc) (hs : st.stop_scan = false)
    (hr : st.restart_scan = false) : Grows st (deliver verbose noSignals st) [] [] [] :=
  ⟨by simp [hs], by simp [hr], by simp, by simp, by simp⟩

theorem Grows.stat (path : CStr) (st : Proc) (hs : st.stop_scan = false)
    (hr : st.restart_scan = false) : Grows st (called (Call.stat path) st) [] [path] [] :=
  ⟨hs, hr, by simp, by simp [statCalls_append, statCalls],
    by simp [accessCalls_append, accessCalls]⟩

theorem Grows.access (path : CStr) (mode : Nat) (st : Proc) (hs : st.stop_scan = false)
    (hr : st.restart_scan = false) :
    Grows st (called (Call.access path mode) st) [] [] [(path, mode)] :=
  ⟨hs, hr, by simp, by simp [statCalls_append, statCalls],
    by simp [accessCalls_append, accessCalls]⟩

theorem Grows.opendir (path : CStr) (st : Proc) (hs : st.stop_scan = false)
    (hr : st.restart_scan = false) : Grows st (called (Call.opendir path) st) [] [] [] :=
  ⟨hs, hr, by simp, by simp [statCalls_append, statCalls],
    by simp [accessCalls_append, accessCalls]⟩

theorem Grows.noAccess (verbose : Bool) (path : CStr) (st : Proc) (hs : st.stop_scan = false)
    (hr : st.restart_scan = false) :
    Grows st (if verbose = true then syslog (Event.noAccess path) st else st) [] [] [] := by
  cases verbose
  · exact Grows.same st hs hr
  · exact ⟨hs, hr, by simp [matchEvents_append, matchEvents], by simp, by simp⟩

theorem Grows.mark (verbose : Bool) (path name pattern : CStr) (st : Proc)
    (hs : st.stop_scan = false) (hr : st.restart_scan = false) :
    Grows st
      (if strstr name pattern = true then syslog (Event.found path pattern) (log_time st)
        else if verbose = true then syslog (Event.compare name pattern) st else st)
      (if strstr name pattern = true then [(path, pattern)] else []) [] [] := by
  cases hm : strstr name pattern
  · cases verbose
    · simpa using Grows.same st hs hr
    · exact ⟨hs, hr, by simp [matchEvents_append, matchEvents], by simp, by simp⟩
  · exact ⟨hs, hr, by simp [matchEvents_append, matchEvents], by simp, by simp⟩

theorem Grows.cast {st r : Proc} {m1 m2 : List (CStr × CStr)} {s1 s2 : List CStr}
    {c1 c2 : List (CStr × Nat)} (h : Grows st r m1 s1 c1) (hm : m1 = m2) (hs : s1 = s2)
    (hc : c1 = c2) : Grows st r m2 s2 c2 := by
  subst hm hs hc; exact h

theorem reported_entry (root pattern : CStr) (chain : List CStr) (a : Attr) (kids rest : Forest)
    (hdot : isDot a.name = false) :
    Forest.reported root pattern chain (Forest.entry a kids rest) =
      (if a.passes && strstr a.name pattern then [(pathOf root (chain ++ [a.name]), pattern)]
        else []) ++
      ((if a.traversable && a.opens then kids.reported root pattern (chain ++ [a.name])
        else []) ++ rest.reported root pattern chain) := by
  simp only [Forest.reported, Forest.reachable, hdot, Bool.false_eq_true, if_false,
    List.filter_cons, List.filter_append]
  by_cases hp : (a.passes && strstr a.name pattern) = true <;>
    by_cases ht : (a.traversable && a.opens) = true <;>
    simp [hp, ht]

theorem reported_dot (root pattern : CStr) (chain : List CStr) (a : Attr) (kids rest : Forest)
    (hdot : isDot a.name = true) :
    Forest.reported root pattern chain (Forest.entry a kids rest) =
      rest.reported root pattern chain := by
  simp [Forest.reported, Forest.reachable, hdot]

theorem statPaths_entry (root : CStr) (chain : List CStr) (a : Attr) (kids rest : Forest)
    (hdot : isDot a.name = false) :
    Forest.statPaths root chain (Forest.entry a kids rest) =
      [pathOf root (chain ++ [a.name])] ++
      ((if a.traversable && a.opens then kids.statPaths root (chain ++ [a.name]) else []) ++
        rest.statPaths root chain) := by
  simp only [Forest.statPaths, Forest.reachable, hdot, Bool.false_eq_true, if_false]
  by_cases ht : (a.traversable && a.opens) = true <;> simp [ht]

theorem statPaths_dot (root : CStr) (chain : List CStr) (a : Attr) (kids rest : Forest)
    (hdot : isDot a.name = true) :
    Forest.statPaths root chain (Forest.entry a kids rest) = rest.statPaths root chain := by
  simp [Forest.statPaths, Forest.reachable, hdot]

theorem accessChecks_entry (root : CStr) (chain : List CStr) (a : Attr) (kids rest : Forest)
    (hdot : isDot a.name = false) :
    Forest.accessChecks root chain (Forest.entry a kids rest) =
      (match a.stat with
        | none => []
        | some is_dir =>
          [(pathOf root (chain ++ [a.name]), R_OK ||| (if is_dir then X_OK else 0))]) ++
      ((if a.traversable && a.opens then kids.accessChecks root (chain ++ [a.name]) else []) ++
        rest.accessChecks root chain) := by
  simp only [Forest.accessChecks, Forest.reachable, hdot, Bool.false_eq_true, if_false,
    List.filterMap_cons, List.filterMap_append]
  cases a.stat <;> by_cases ht : (a.traversable && a.opens) = true <;> simp [ht]

theorem accessChecks_dot (root : CStr) (chain : List CStr) (a : Attr) (kids rest : Forest)
    (hdot : isDot a.name = true) :
    Forest.accessChecks root chain (Forest.entry a kids rest) =
      rest.accessChecks root chain := by
  simp [Forest.accessChecks, Forest.reachable, hdot]

/-- With no signal arriving, the loop over a listing the file system shows
returns, leaves the flags clear, reports the expected entries and makes the
expected `stat` and `access` calls. -/
theorem scan_forest (fs : FS) (verbose : Bool) (pattern root : CStr) (listing : Forest) :
    ∀ (fuel : Nat) (chain : List CStr) (st : Proc),
      st.stop_scan = false → st.restart_scan = false →
      sees fs root chain listing = true → listing.depth ≤ fuel →
      ∃ r, scan_entries fs verbose noSignals pattern
            (scan_directory fs verbose noSignals pattern fuel) (pathOf root chain)
            listing.names st = some r ∧
        Grows st r (listing.reported root pattern chain) (listing.statPaths root chain)
          (listing.accessChecks root chain) := by
  induction listing with
  | nil =>
    intro fuel chain st hs hr _ _
    exact ⟨st, by simp [Forest.names, scan_entries], Grows.same st hs hr⟩
  | entry a kids rest ihk ihr =>
    intro fuel chain st hs hr hsee hd
    simp only [sees, Bool.and_eq_true, Bool.or_eq_true] at hsee
    obtain ⟨hhere, hrest⟩ := hsee
    simp only [Forest.depth, max_le_iff] at hd
    obtain ⟨hdk, hdr⟩ := hd
    have g1 := Grows.quiet verbose st hs hr
    have hf1 : (deliver verbose noSignals st).flagged = false := by
      simp [Proc.flagged, g1.stop, g1.restart]
    rw [Forest.names, scan_entries_cons, hf1]
    simp only [Bool.false_eq_true, if_false]
    generalize deliver verbose noSignals st = st1 at g1 ⊢
    -- the turn for the entry itself
    have hentry : ∃ st2 ms ss cs,
        scan_entry fs verbose pattern (scan_directory fs verbose noSignals pattern fuel)
          (pathOf root chain) a.name st1 = some st2 ∧ Grows st1 st2 ms ss cs ∧
        Forest.reported root pattern chain (Forest.entry a kids rest) =
          ms ++ rest.reported root pattern chain ∧
        Forest.statPaths root chain (Forest.entry a kids rest) =
          ss ++ rest.statPaths root chain ∧
        Forest.accessChecks root chain (Forest.entry a kids rest) =
          cs ++ rest.accessChecks root chain := by
      by_cases hdot : isDot a.name = true
      · exact ⟨st1, [], [], [], by simp [scan_entry, hdot], Grows.same st1 g1.stop g1.restart,
          by simp [reported_dot _ _ _ _ _ _ hdot], by simp [statPaths_dot _ _ _ _ _ hdot],
          by simp [accessChecks_dot _ _ _ _ _ hdot]⟩
      · have hdot' : isDot a.name = false := by simpa using hdot
        rcases hhere with hhere | hhere
        · exact absurd hhere hdot
        simp only [Bool.and_eq_true, decide_eq_true_eq, Bool.or_eq_true, Bool.not_eq_true',
          decide_eq_false_iff_not] at hhere
        obtain ⟨⟨⟨hstat, hacc⟩, haccx⟩, hkids⟩ := hhere
        rw [reported_entry _ _ _ _ _ _ hdot', statPaths_entry _ _ _ _ _ hdot',
          accessChecks_entry _ _ _ _ _ hdot']
        simp only [scan_entry, hdot', Bool.false_eq_true, if_false, snprintf_pathOf, hstat]
        have g2 := Grows.stat (pathOf root (chain ++ [a.name])) st1 g1.stop g1.restart
        generalize called (Call.stat (pathOf root (chain ++ [a.name]))) st1 = st2 at g2 ⊢
        cases hst : a.stat with
        | none =>
          refine ⟨st2, _, _, _, rfl, g2, ?_, ?_, ?_⟩ <;>
            simp [Attr.passes, Attr.traversable, hst]
        | some d =>
          have hpass : has_access fs (pathOf root (chain ++ [a.name])) d = a.passes := by
            cases d with
            | false => simpa [has_access, Attr.passes, hst, R_OK] using hacc
            | true =>
              simpa [has_access, Attr.passes, hst] using haccx.resolve_left (by simp [hst])
          have htrav : a.traversable = (d && a.passes) := by
            cases d <;> simp [Attr.traversable, Attr.passes, hst]
          simp only [hpass, htrav]
          have g3 := g2.then (Grows.access (pathOf root (chain ++ [a.name]))
            (R_OK ||| (if d = true then X_OK else 0)) st2 g2.stop g2.restart)
          generalize called (Call.access (pathOf root (chain ++ [a.name]))
            (R_OK ||| (if d = true then X_OK else 0))) st2 = st3 at g3 ⊢
          cases hp : a.passes with
          | false =>
            simp only [Bool.not_false, if_true]
            refine ⟨_, _, _, _, rfl,
              g3.then (Grows.noAccess verbose _ st3 g3.stop g3.restart), ?_, ?_, ?_⟩ <;> simp
          | true =>
            simp only [Bool.not_true, Bool.false_eq_true, if_false]
            have g4 := g3.then (Grows.mark verbose (pathOf root (chain ++ [a.name])) a.name
              pattern st3 g3.stop g3.restart)
            generalize (if strstr a.name pattern = true then
                syslog (Event.found (pathOf root (chain ++ [a.name])) pattern) (log_time st3)
              else if verbose = true then syslog (Event.compare a.name pattern) st3
              else st3) = st4 at g4 ⊢
            cases d with
            | false =>
              simp only [Bool.false_eq_true, if_false]
              refine ⟨st4, _, _, _, rfl, g4, ?_, ?_, ?_⟩ <;> simp
            | true =>
              simp only [if_true]
              obtain ⟨f, rfl⟩ : ∃ f, fuel = f + 1 := ⟨fuel - 1, by omega⟩
              obtain ⟨hopen, hbelow⟩ := hkids.resolve_left (by simp [htrav, hp])
              rw [scan_directory]
              have g5 := g4.then (Grows.quiet verbose st4 g4.stop g4.restart)
              generalize deliver verbose noSignals st4 = st5 at g5 ⊢
              simp only [g5.stop, Bool.false_eq_true, if_false, hopen]
              have g6 := g5.then (Grows.opendir (pathOf root (chain ++ [a.name])) st5
                g5.stop g5.restart)
              generalize called (Call.opendir (pathOf root (chain ++ [a.name]))) st5 = st6
                at g6 ⊢
              cases ho : a.opens with
              | false =>
                simp only [Bool.false_eq_true, if_false]
                refine ⟨st6, _, _, _, rfl, g6, ?_, ?_, ?_⟩ <;> simp
              | true =>
                simp only [if_true]
                obtain ⟨r1, k1, k2⟩ := ihk f (chain ++ [a.name]) st6 g6.stop g6.restart
                  (hbelow.resolve_left (by simp [ho])) (by omega)
                refine ⟨r1, _, _, _, k1, g6.then k2, ?_, ?_, ?_⟩ <;> simp
    obtain ⟨st2, ms, ss, cs, he, g2, e1, e2, e3⟩ := hentry
    obtain ⟨r, hr1, g3⟩ := ihr fuel chain st2 g2.stop g2.restart hrest hdr
    rw [he]
    simp only [Option.some_bind]
    refine ⟨r, hr1, ((g1.then g2).then g3).cast ?_ ?_ ?_⟩
    · rw [e1]; simp
    · rw [e2]; simp
    · rw [e3]; simp

theorem pathOf_root : pathOf ['/'] [] = ['/'] := by decide

/-- With no signal arriving, a pass over a tree the file system shows returns,
reports the expected entries and makes the expected `stat` and `access` calls. -/
theorem pass_on_tree (fs : FS) (verbose : Bool) (pattern : CStr) (top : Forest) (fuel : Nat)
    (st : Proc) (hs : st.stop_scan = false) (hr : st.restart_scan = false)
    (h : Presents fs top) (hfuel : top.depth < fuel) :
    ∃ r, scan_directory fs verbose noSignals pattern fuel ['/'] st = some r ∧
      Grows st r (top.reported ['/'] pattern []) (top.statPaths ['/'] [])
        (top.accessChecks ['/'] []) := by
  obtain ⟨f, rfl⟩ : ∃ f, fuel = f + 1 := ⟨fuel - 1, by omega⟩
  obtain ⟨hopen, hsee⟩ := h
  have g1 := Grows.quiet verbose st hs hr
  rw [scan_directory]
  generalize deliver verbose noSignals st = st1 at g1 ⊢
  simp only [g1.stop, Bool.false_eq_true, if_false, hopen]
  have g2 := g1.then (Grows.opendir ['/'] st1 g1.stop g1.restart)
  generalize called (Call.opendir ['/']) st1 = st2 at g2 ⊢
  obtain ⟨r, h1, g3⟩ := scan_forest fs verbose pattern ['/'] top f [] st2 g2.stop g2.restart
    hsee (by omega)
  rw [pathOf_root] at h1
  exact ⟨r, h1, (g2.then g3).cast (by simp) (by simp) (by simp)⟩

theorem strstr_iff_infix (hay needle : CStr) : strstr hay needle = true ↔ needle <:+: hay := by
  induction hay with
  | nil => simp [strstr, List.infix_nil]
  | cons c hay ih =>
    rw [strstr, Bool.or_eq_true, ih, List.infix_cons_iff, List.isPrefixOf_iff_prefix]

theorem deliver_withBefore (verbose : Bool) (sched : Nat → Pending) (earlier : List Event) (before : List Call)
    (st : Proc) :
    deliver verbose sched (withBefore earlier before st) =
      withBefore earlier before (deliver verbose sched st) := by
  cases hu1 : (sched st.clock).usr1 <;> cases hu2 : (sched st.clock).usr2 <;> cases verbose <;>
    simp [deliver, withBefore, sigusr1_handler, sigusr2_handler, syslog, hu1, hu2]

theorem syslog_withBefore (e : Event) (earlier : List Event) (before : List Call) (st : Proc) :
    syslog e (withBefore earlier before st) = withBefore earlier before (syslog e st) := by
  simp [syslog, withBefore]

@[simp] theorem withBefore_stop (earlier : List Event) (before : List Call) (st : Proc) :
    (withBefore earlier before st).stop_scan = st.stop_scan := rfl

@[simp] theorem withBefore_restart (earlier : List Event) (before : List Call) (st : Proc) :
    (withBefore earlier before st).restart_scan = st.restart_scan := rfl

theorem called_withBefore (c : Call) (earlier : List Event) (before : List Call) (st : Proc) :
    called c (withBefore earlier before st) = withBefore earlier before (called c st) := by
  simp [called, withBefore]

@[simp] theorem withBefore_flagged (earlier : List Event) (before : List Call) (st : Proc) :
    (withBefore earlier before st).flagged = st.flagged := rfl

/-- One turn of the loop does the same whatever was logged before it. -/
theorem scan_entry_before (fs : FS) (verbose : Bool) (pattern : CStr)
    (recurse : CStr → Proc → Option Proc) (dir_path d_name : CStr) (earlier : List Event) (before : List Call)
    (hrec : ∀ path st, recurse path (withBefore earlier before st) =
      (recurse path st).map (withBefore earlier before)) (st : Proc) :
    scan_entry fs verbose pattern recurse dir_path d_name (withBefore earlier before st) =
      (scan_entry fs verbose pattern recurse dir_path d_name st).map (withBefore earlier before) := by
  unfold scan_entry
  by_cases hd : isDot d_name = true
  · simp [hd]
  · simp only [hd, Bool.false_eq_true, if_false, called_withBefore]
    cases fs.stat (snprintf_path dir_path d_name) with
    | none => rfl
    | some is_dir =>
      simp only []
      by_cases ha : (!has_access fs (snprintf_path dir_path d_name) is_dir) = true
      · simp only [ha, if_true]
        cases verbose <;> simp [syslog_withBefore]
      · simp only [ha, Bool.false_eq_true, if_false]
        generalize called (Call.access (snprintf_path dir_path d_name)
          (R_OK ||| (if is_dir = true then X_OK else 0)))
          (called (Call.stat (snprintf_path dir_path d_name)) st) = st3
        have hmark : (if strstr d_name pattern = true then
              syslog (Event.found (snprintf_path dir_path d_name) pattern)
                (log_time (withBefore earlier before st3))
            else if verbose = true then
              syslog (Event.compare d_name pattern) (withBefore earlier before st3)
            else withBefore earlier before st3) =
            withBefore earlier before (if strstr d_name pattern = true then
              syslog (Event.found (snprintf_path dir_path d_name) pattern) (log_time st3)
            else if verbose = true then syslog (Event.compare d_name pattern) st3
            else st3) := by
          split
          · simp [syslog_withBefore]
          · split
            · simp [syslog_withBefore]
            · rfl
        rw [hmark]
        cases is_dir with
        | false => simp
        | true => simp only [if_true]; exact hrec _ _

/-- The loop does the same whatever was logged before it started. -/
theorem scan_entries_before (fs : FS) (verbose : Bool) (sched : Nat → Pending) (pattern : CStr)
    (recurse : CStr → Proc → Option Proc) (dir_path : CStr) (earlier : List Event) (before : List Call)
    (hrec : ∀ path st, recurse path (withBefore earlier before st) =
      (recurse path st).map (withBefore earlier before)) :
    ∀ (entries : List CStr) (st : Proc),
      scan_entries fs verbose sched pattern recurse dir_path entries (withBefore earlier before st) =
        (scan_entries fs verbose sched pattern recurse dir_path entries st).map
          (withBefore earlier before) := by
  intro entries
  induction entries with
  | nil => intro st; simp [scan_entries]
  | cons d_name rest ih =>
    intro st
    rw [scan_entries_cons, scan_entries_cons, deliver_withBefore, withBefore_flagged]
    generalize deliver verbose sched st = st1
    by_cases hf : st1.flagged = true
    · simp [hf]
    · simp only [hf, Bool.false_eq_true, if_false]
      rw [scan_entry_before fs verbose pattern recurse dir_path d_name earlier before hrec]
      cases scan_entry fs verbose pattern recurse dir_path d_name st1 with
      | none => rfl
      | some mid => simp only [Option.map_some', Option.some_bind]; exact ih mid

theorem scan_directory_before (fs : FS) (verbose : Bool) (sched : Nat → Pending) (pattern : CStr)
    (earlier : List Event) (before : List Call) :
    ∀ (fuel : Nat) (dir_path : CStr) (st : Proc),
      scan_directory fs verbose sched pattern fuel dir_path (withBefore earlier before st) =
        (scan_directory fs verbose sched pattern fuel dir_path st).map (withBefore earlier before) := by
  intro fuel
  induction fuel with
  | zero => intro _ _; rfl
  | succ fuel ih =>
    intro dir_path st
    rw [scan_directory, scan_directory, deliver_withBefore]
    generalize deliver verbose sched st = st1
    simp only [withBefore_stop, called_withBefore]
    split
    · rfl
    · split
      · rfl
      · exact scan_entries_before fs verbose sched pattern _ dir_path earlier before ih _ _

@[simp] theorem withEarlier_stop (earlier : List Event) (st : Proc) :
    (withEarlier earlier st).stop_scan = st.stop_scan := rfl

@[simp] theorem withEarlier_restart (earlier : List Event) (st : Proc) :
    (withEarlier earlier st).restart_scan = st.restart_scan := rfl

/-- The loop does the same whatever was logged before it started. -/
theorem scan_entries_frame (fs : FS) (verbose : Bool) (sched : Nat → Pending) (pattern : CStr)
    (recurse : CStr → Proc → Option Proc) (dir_path : CStr) (earlier : List Event)
    (hrec : ∀ path st, recurse path (withEarlier earlier st) =
      (recurse path st).map (withEarlier earlier)) :
    ∀ (entries : List CStr) (st : Proc),
      scan_entries fs verbose sched pattern recurse dir_path entries (withEarlier earlier st) =
        (scan_entries fs verbose sched pattern recurse dir_path entries st).map
          (withEarlier earlier) :=
  scan_entries_before fs verbose sched pattern recurse dir_path earlier [] hrec

theorem scan_directory_frame (fs : FS) (verbose : Bool) (sched : Nat → Pending) (pattern : CStr)
    (earlier : List Event) :
    ∀ (fuel : Nat) (dir_path : CStr) (st : Proc),
      scan_directory fs verbose sched pattern fuel dir_path (withEarlier earlier st) =
        (scan_directory fs verbose sched pattern fuel dir_path st).map (withEarlier earlier) :=
  scan_directory_before fs verbose sched pattern earlier []

theorem deliver_flagged (verbose : Bool) (sched : Nat → Pending) (st : Proc)
    (h : st.flagged = true) : (deliver verbose sched st).flagged = true := by
  cases hu1 : (sched st.clock).usr1 <;> cases hu2 : (sched st.clock).usr2 <;> cases verbose <;>
    simp [Proc.flagged, deliver, sigusr1_handler, sigusr2_handler, syslog, hu1, hu2] at h ⊢ <;>
    exact h

theorem deliver_matchEvents (verbose : Bool) (sched : Nat → Pending) (st : Proc) :
    matchEvents (deliver verbose sched st).log = matchEvents st.log := by
  cases hu1 : (sched st.clock).usr1 <;> cases hu2 : (sched st.clock).usr2 <;> cases verbose <;>
    simp [deliver, sigusr1_handler, sigusr2_handler, syslog, hu1, hu2, matchEvents_append,
      matchEvents]

/-- When the flags are still clear after the handlers ran, no signal arrived. -/
theorem deliver_clear (verbose : Bool) (sched : Nat → Pending) (st : Proc)
    (h : (deliver verbose sched st).flagged = false) :
    deliver verbose sched st = deliver verbose noSignals st := by
  cases hu1 : (sched st.clock).usr1 <;> cases hu2 : (sched st.clock).usr2 <;> cases verbose <;>
    simp [Proc.flagged, deliver, sigusr1_handler, sigusr2_handler, syslog, hu1, hu2,
      noSignals] at h ⊢

/-- Once a flag is set the loop processes no further entry: it reads the flags
once more and ends. -/
theorem scan_entries_flagged (fs : FS) (verbose : Bool) (sched : Nat → Pending) (pattern : CStr)
    (recurse : CStr → Proc → Option Proc) (dir_path d_name : CStr) (rest : List CStr)
    (st : Proc) (h : st.flagged = true) :
    scan_entries fs verbose sched pattern recurse dir_path (d_name :: rest) st =
      some (deliver verbose sched st) := by
  rw [scan_entries_cons, deliver_flagged verbose sched st h]
  rfl


theorem withEarlier_self (st : Proc) : withEarlier st.log { st with log := [] } = st := by
  cases st; simp [withEarlier]

theorem matchEvents_mono {xs ys : List Event} (h : xs <+: ys) :
    matchEvents xs <+: matchEvents ys := by
  obtain ⟨t, rfl⟩ := h
  rw [matchEvents_append]
  exact List.prefix_append _ _

theorem scan_directory_mono (fs : FS) (verbose : Bool) (sched : Nat → Pending) (pattern : CStr)
    (fuel : Nat) (dir_path : CStr) (st r : Proc)
    (h : scan_directory fs verbose sched pattern fuel dir_path st = some r) :
    st.log <+: r.log := by
  have hf := scan_directory_frame fs verbose sched pattern st.log fuel dir_path
    { st with log := [] }
  rw [withEarlier_self, h] at hf
  cases hr0 : scan_directory fs verbose sched pattern fuel dir_path { st with log := [] } with
  | none => rw [hr0] at hf; simp at hf
  | some r0 =>
    rw [hr0] at hf
    simp only [Option.map_some', Option.some.injEq] at hf
    rw [hf]
    exact List.prefix_append _ _

theorem scan_entries_mono (fs : FS) (verbose : Bool) (sched : Nat → Pending) (pattern : CStr)
    (fuel : Nat) (dir_path : CStr) (entries : List CStr) (st r : Proc)
    (h : scan_entries fs verbose sched pattern (scan_directory fs verbose sched pattern fuel)
      dir_path entries st = some r) :
    st.log <+: r.log := by
  have hf := scan_entries_frame fs verbose sched pattern
    (scan_directory fs verbose sched pattern fuel) dir_path st.log
    (fun path s => scan_directory_frame fs verbose sched pattern st.log fuel path s)
    entries { st with log := [] }
  rw [withEarlier_self, h] at hf
  cases hr0 : scan_entries fs verbose sched pattern (scan_directory fs verbose sched pattern fuel)
      dir_path entries { st with log := [] } with
  | none => rw [hr0] at hf; simp at hf
  | some r0 =>
    rw [hr0] at hf
    simp only [Option.map_some', Option.some.injEq] at hf
    rw [hf]
    exact List.prefix_append _ _

theorem flagged_syslog (e : Event) (st : Proc) : (syslog e st).flagged = st.flagged := rfl

/-- One turn of the loop under a schedule against the same turn without
signals, for recursive calls related in the same way. -/
theorem scan_entry_cut (fs : FS) (verbose : Bool) (pattern : CStr)
    (recA recB : CStr → Proc → Option Proc)
    (hrec : ∀ path st full, st.flagged = false → recB path st = some full →
      ∃ cut, recA path st = some cut ∧ CutOf cut full)
    (dir_path d_name : CStr) (st full : Proc) (hst : st.flagged = false)
    (h : scan_entry fs verbose pattern recB dir_path d_name st = some full) :
    ∃ cut, scan_entry fs verbose pattern recA dir_path d_name st = some cut ∧ CutOf cut full := by
  unfold scan_entry at h ⊢
  by_cases hd : isDot d_name = true
  · simp only [hd, if_true, Option.some.injEq] at h ⊢
    exact ⟨st, rfl, Or.inl ⟨h, hst⟩⟩
  · simp only [hd, Bool.false_eq_true, if_false] at h ⊢
    have hst2 : (called (Call.stat (snprintf_path dir_path d_name)) st).flagged = false := hst
    generalize called (Call.stat (snprintf_path dir_path d_name)) st = st2 at h hst2 ⊢
    cases hs : fs.stat (snprintf_path dir_path d_name) with
    | none =>
      rw [hs] at h
      simp only [Option.some.injEq] at h
      exact ⟨st2, rfl, Or.inl ⟨h, hst2⟩⟩
    | some is_dir =>
      rw [hs] at h
      simp only [] at h ⊢
      have hst3 : (called (Call.access (snprintf_path dir_path d_name)
          (R_OK ||| (if is_dir = true then X_OK else 0))) st2).flagged = false := hst2
      generalize called (Call.access (snprintf_path dir_path d_name)
          (R_OK ||| (if is_dir = true then X_OK else 0))) st2 = st3 at h hst3 ⊢
      by_cases ha : (!has_access fs (snprintf_path dir_path d_name) is_dir) = true
      · simp only [ha, if_true, Option.some.injEq] at h ⊢
        refine ⟨_, rfl, Or.inl ⟨h, ?_⟩⟩
        split
        · rw [flagged_syslog]; exact hst3
        · exact hst3
      · simp only [ha, if_false] at h ⊢
        have hmark : (if strstr d_name pattern = true then
              syslog (Event.found (snprintf_path dir_path d_name) pattern) (log_time st3)
            else if verbose = true then syslog (Event.compare d_name pattern) st3
            else st3).flagged = false := by
          split
          · exact hst3
          · split
            · exact hst3
            · exact hst3
        generalize (if strstr d_name pattern = true then
              syslog (Event.found (snprintf_path dir_path d_name) pattern) (log_time st3)
            else if verbose = true then syslog (Event.compare d_name pattern) st3
            else st3) = st4 at h hmark ⊢
        cases is_dir with
        | false =>
          simp only [Bool.false_eq_true, if_false, Option.some.injEq] at h ⊢
          exact ⟨st4, rfl, Or.inl ⟨h, hmark⟩⟩
        | true =>
          simp only [if_true] at h ⊢
          exact hrec _ st4 full hmark h

theorem quiet_flagged (verbose : Bool) (st : Proc) :
    (deliver verbose noSignals st).flagged = st.flagged := by
  simp [Proc.flagged]

/-- The loop under a schedule against the same loop without signals. -/
theorem scan_entries_cut (fs : FS) (verbose : Bool) (sched : Nat → Pending) (pattern : CStr)
    (fuel : Nat) (dir_path : CStr)
    (hrec : ∀ path st full, st.flagged = false →
      scan_directory fs verbose noSignals pattern fuel path st = some full →
      ∃ cut, scan_directory fs verbose sched pattern fuel path st = some cut ∧ CutOf cut full) :
    ∀ (entries : List CStr) (st full : Proc), st.flagged = false →
      scan_entries fs verbose noSignals pattern (scan_directory fs verbose noSignals pattern fuel)
        dir_path entries st = some full →
      ∃ cut, scan_entries fs verbose sched pattern (scan_directory fs verbose sched pattern fuel)
        dir_path entries st = some cut ∧ CutOf cut full := by
  intro entries
  induction entries with
  | nil =>
    intro st full hst h
    simp only [scan_entries, Option.some.injEq] at h
    exact ⟨st, by simp [scan_entries], Or.inl ⟨h, hst⟩⟩
  | cons d_name rest ih =>
    intro st full hst h
    have hmono := scan_entries_mono fs verbose noSignals pattern fuel dir_path _ st full h
    rw [scan_entries_cons, quiet_flagged, hst] at h
    simp only [Bool.false_eq_true, if_false] at h
    rw [scan_entries_cons]
    by_cases hfA : (deliver verbose sched st).flagged = true
    · refine ⟨deliver verbose sched st, by simp [hfA], Or.inr ⟨hfA, ?_⟩⟩
      rw [deliver_matchEvents]
      exact matchEvents_mono hmono
    · have hfA' : (deliver verbose sched st).flagged = false := by simpa using hfA
      rw [deliver_clear verbose sched st hfA', quiet_flagged, hst]
      simp only [Bool.false_eq_true, if_false]
      obtain ⟨midB, hm1, hm2⟩ := Option.bind_eq_some.mp h
      have hst1 : (deliver verbose noSignals st).flagged = false := by
        rw [quiet_flagged]; exact hst
      obtain ⟨midA, ha1, ha2⟩ := scan_entry_cut fs verbose pattern _ _ hrec dir_path d_name
        (deliver verbose noSignals st) midB hst1 hm1
      rw [ha1]
      simp only [Option.some_bind]
      rcases ha2 with ⟨heq, hclear⟩ | ⟨hflag, hpre⟩
      · subst heq
        exact ih midA full hclear hm2
      · have hmono2 := scan_entries_mono fs verbose noSignals pattern fuel dir_path _ midB full hm2
        cases rest with
        | nil =>
          exact ⟨midA, by simp [scan_entries],
            Or.inr ⟨hflag, hpre.trans (matchEvents_mono hmono2)⟩⟩
        | cons e es =>
          refine ⟨deliver verbose sched midA, scan_entries_flagged _ _ _ _ _ _ _ _ _ hflag,
            Or.inr ⟨deliver_flagged _ _ _ hflag, ?_⟩⟩
          rw [deliver_matchEvents]
          exact hpre.trans (matchEvents_mono hmono2)

/-- An interrupted scan against the same scan without signals: it returns
whenever that one does, and its match events are the first ones of that one. -/
theorem scan_directory_cut (fs : FS) (verbose : Bool) (sched : Nat → Pending) (pattern : CStr) :
    ∀ (fuel : Nat) (dir_path : CStr) (st full : Proc), st.flagged = false →
      scan_directory fs verbose noSignals pattern fuel dir_path st = some full →
      ∃ cut, scan_directory fs verbose sched pattern fuel dir_path st = some cut ∧
        CutOf cut full := by
  intro fuel
  induction fuel with
  | zero => intro _ _ _ _ h; simp [scan_directory] at h
  | succ fuel ih =>
    intro dir_path st full hst h
    have hmono := scan_directory_mono fs verbose noSignals pattern _ dir_path st full h
    have hpre : matchEvents (deliver verbose sched st).log <+: matchEvents full.log := by
      rw [deliver_matchEvents]; exact matchEvents_mono hmono
    rw [scan_directory] at h ⊢
    by_cases hfA : (deliver verbose sched st).flagged = true
    · by_cases hstop : (deliver verbose sched st).stop_scan = true
      · exact ⟨_, by simp [hstop], Or.inr ⟨hfA, hpre⟩⟩
      · simp only [hstop, Bool.false_eq_true, if_false]
        have hfc : (called (Call.opendir dir_path) (deliver verbose sched st)).flagged = true :=
          hfA
        have hpc : matchEvents (called (Call.opendir dir_path) (deliver verbose sched st)).log
            <+: matchEvents full.log := hpre
        generalize called (Call.opendir dir_path) (deliver verbose sched st) = c at hfc hpc ⊢
        cases fs.opendir dir_path with
        | none => exact ⟨_, rfl, Or.inr ⟨hfc, hpc⟩⟩
        | some entries =>
          cases entries with
          | nil => exact ⟨_, by simp [scan_entries], Or.inr ⟨hfc, hpc⟩⟩
          | cons e es =>
            refine ⟨_, scan_entries_flagged _ _ _ _ _ _ _ _ _ hfc,
              Or.inr ⟨deliver_flagged _ _ _ hfc, ?_⟩⟩
            rw [deliver_matchEvents]; exact hpc
    · have hfA' : (deliver verbose sched st).flagged = false := by simpa using hfA
      rw [deliver_clear verbose sched st hfA']
      have hst1 : (deliver verbose noSignals st).flagged = false := by
        rw [quiet_flagged]; exact hst
      have hstop : (deliver verbose noSignals st).stop_scan = false := by
        simp only [Proc.flagged, Bool.or_eq_false_iff] at hst1; exact hst1.1
      simp only [hstop, Bool.false_eq_true, if_false] at h ⊢
      have hst2 : (called (Call.opendir dir_path) (deliver verbose noSignals st)).flagged =
          false := hst1
      generalize called (Call.opendir dir_path) (deliver verbose noSignals st) = c at h hst2 ⊢
      cases ho : fs.opendir dir_path with
      | none =>
        rw [ho] at h
        simp only [Option.some.injEq] at h
        exact ⟨_, rfl, Or.inl ⟨h, hst2⟩⟩
      | some entries =>
        rw [ho] at h
        exact scan_entries_cut fs verbose sched pattern fuel dir_path ih entries _ full hst2 h

theorem flagged_false_iff (st : Proc) :
    st.flagged = false ↔ st.stop_scan = false ∧ st.restart_scan = false := by
  simp [Proc.flagged]

/-- The moment a read of the flags in the loop finds one set, the loop ends:
the entry just read and the ones after it are not processed. -/
theorem scan_entries_stops (fs : FS) (verbose : Bool) (sched : Nat → Pending) (pattern : CStr)
    (recurse : CStr → Proc → Option Proc) (dir_path d_name : CStr) (rest : List CStr)
    (st : Proc) (h : (deliver verbose sched st).flagged = true) :
    scan_entries fs verbose sched pattern recurse dir_path (d_name :: rest) st =
      some (deliver verbose sched st) := by
  rw [scan_entries_cons, h]
  rfl

theorem deliver_calls (verbose : Bool) (sched : Nat → Pending) (st : Proc) :
    (deliver verbose sched st).calls = st.calls := by
  cases hu1 : (sched st.clock).usr1 <;> cases hu2 : (sched st.clock).usr2 <;> cases verbose <;>
    simp [deliver, sigusr1_handler, sigusr2_handler, syslog, hu1, hu2]

/-- When the read of the flag on entry finds the stop flag set, the call returns
at once: it opens nothing. -/
theorem scan_directory_returns_on_stop (fs : FS) (verbose : Bool) (sched : Nat → Pending)
    (pattern : CStr) (fuel : Nat) (dir_path : CStr) (st : Proc)
    (h : (deliver verbose sched st).stop_scan = true) :
    scan_directory fs verbose sched pattern (fuel + 1) dir_path st =
      some (deliver verbose sched st) := by
  rw [scan_directory]
  simp [h]

/-- When the read of the flag on entry finds a flag set, the call processes no
entry: it returns with the flag set, no match event, no `stat` and no `access`
call added. -/
theorem scan_directory_stops (fs : FS) (verbose : Bool) (sched : Nat → Pending) (pattern : CStr)
    (fuel : Nat) (dir_path : CStr) (st : Proc) (h : (deliver verbose sched st).flagged = true) :
    ∃ r, scan_directory fs verbose sched pattern (fuel + 1) dir_path st = some r ∧
      r.flagged = true ∧ matchEvents r.log = matchEvents st.log ∧
      statCalls r.calls = statCalls st.calls ∧ accessCalls r.calls = accessCalls st.calls := by
  rw [scan_directory]
  have hl := deliver_matchEvents verbose sched st
  have hc := deliver_calls verbose sched st
  generalize deliver verbose sched st = d at h hl hc ⊢
  by_cases hstop : d.stop_scan = true
  · exact ⟨d, by simp [hstop], h, hl, by rw [hc], by rw [hc]⟩
  · simp only [hstop, Bool.false_eq_true, if_false]
    have hfc : (called (Call.opendir dir_path) d).flagged = true := h
    have hlc : matchEvents (called (Call.opendir dir_path) d).log = matchEvents st.log := hl
    have hsc : statCalls (called (Call.opendir dir_path) d).calls = statCalls st.calls := by
      simp [hc, statCalls_append, statCalls]
    have hac : accessCalls (called (Call.opendir dir_path) d).calls =
        accessCalls st.calls := by
      simp [hc, accessCalls_append, accessCalls]
    generalize called (Call.opendir dir_path) d = c at hfc hlc hsc hac ⊢
    have hdone : ∀ r, r = c ∨ r = deliver verbose sched c →
        r.flagged = true ∧ matchEvents r.log = matchEvents st.log ∧
        statCalls r.calls = statCalls st.calls ∧ accessCalls r.calls = accessCalls st.calls := by
      intro r hr
      rcases hr with rfl | rfl
      · exact ⟨hfc, hlc, hsc, hac⟩
      · exact ⟨deliver_flagged _ _ _ hfc, by rw [deliver_matchEvents, hlc],
          by rw [deliver_calls, hsc], by rw [deliver_calls, hac]⟩
    cases fs.opendir dir_path with
    | none => exact ⟨c, rfl, hdone c (Or.inl rfl)⟩
    | some entries =>
      cases entries with
      | nil => exact ⟨c, by simp [scan_entries], hdone c (Or.inl rfl)⟩
      | cons e es =>
        exact ⟨_, scan_entries_flagged _ _ _ _ _ _ _ _ _ hfc, hdone _ (Or.inr rfl)⟩

/-- C1 (as amended). For every tree the file system shows at "/" and every
pattern, one complete pass of `scan_directory` with no flag set returns, and its
match events are exactly, once each and in walk order, the entries that

* can be reached from the root through directories that pass `stat` and the
  access check and can be opened,
* pass `stat` and the access check themselves: read access and, for a
  directory, search access as well,
* have a base name that contains the pattern as a substring. -/
theorem pass_reports_reachable_passing_entries (fs : FS) (top : Forest) (verbose : Bool)
    (pattern : CStr) (fuel : Nat) (st : Proc) (hst : st.flagged = false)
    (h : Presents fs top) (hfuel : top.depth < fuel) :
    ∃ r, scan_directory fs verbose noSignals pattern fuel ['/'] st = some r ∧
      matchEvents r.log = matchEvents st.log ++
        ((top.reachable []).filter fun e => e.2.passes && decide (pattern <:+: e.2.name)).map
          fun e => (pathOf ['/'] e.1, pattern) := by
  obtain ⟨hs, hr⟩ := (flagged_false_iff st).mp hst
  obtain ⟨r, h1, _, _, h4⟩ := pass_on_tree fs verbose pattern top fuel st hs hr h hfuel
  refine ⟨r, h1, ?_⟩
  rw [h4, Forest.reported]
  congr 2
  apply List.filter_congr
  intro e _
  congr 1
  rw [Bool.eq_iff_iff, strstr_iff_infix]
  simp

/-- The scenario tree and the pattern "log" meet the hypotheses of the theorem on C1. -/
theorem pass_reports_reachable_passing_entries_witness :
    fresh.flagged = false ∧ Presents sampleFS sampleTree ∧ sampleTree.depth < 4 ∧
    ∃ r, scan_directory sampleFS false noSignals "log".toList 4 ['/'] fresh = some r ∧
      matchEvents r.log = matchEvents fresh.log ++
        ((sampleTree.reachable []).filter fun e =>
          e.2.passes && decide ("log".toList <:+: e.2.name)).map
          fun e => (pathOf ['/'] e.1, "log".toList) :=
  ⟨by decide, ⟨by decide, by decide⟩, by decide,
    pass_reports_reachable_passing_entries sampleFS sampleTree false "log".toList 4 fresh
      (by decide) ⟨by decide, by decide⟩ (by decide)⟩

/-- C1, as stated, fails: the tree holds a directory `tmp` the process may read
(`access(path, R_OK)` succeeds) whose name contains the pattern "tmp", and the
pass reports nothing, because directories are checked with `R_OK | X_OK`. -/
theorem readable_directory_not_reported :
    Presents lockedFS lockedTree ∧
    lockedTree.all [] = [(["tmp".toList], ⟨"tmp".toList, some true, true, false, false⟩)] ∧
    lockedFS.stat "//tmp".toList = some true ∧
    lockedFS.access "//tmp".toList R_OK = true ∧
    "tmp".toList <:+: "tmp".toList ∧
    (scan_directory lockedFS false noSignals "tmp".toList 2 ['/'] fresh).map
      (fun r => matchEvents r.log) = some [] :=
  ⟨⟨by decide, by decide⟩, by decide, by decide, by decide, List.infix_refl _, by decide⟩

/-- C2 (as amended). For every tree, pattern and schedule of signals, the
interrupted pass returns, its match events are the first match events of the
pass without signals, and it is that pass when no flag was noticed. The moment
a read of the flags finds one set, the loop of the current directory ends
without processing the entry just read or any later one (so does the loop of
every enclosing directory, at its next read); a call of `scan_directory` entered
at that moment processes no entry of the deeper level (no match event, no
`stat`, no `access`), and returns at once, opening nothing, when it is the stop
flag that is set; handling further signals adds no match event and no call and
leaves the flag set; and a loop that goes on with a flag set, as the loop of
every enclosing directory does when the call below it returns, processes none
of its remaining entries: no match event and no call on a path is added. -/
theorem interrupted_pass_processes_no_further_entry (fs : FS) (top : Forest) (verbose : Bool)
    (sched : Nat → Pending) (pattern : CStr) (fuel : Nat) (st : Proc)
    (hst : st.flagged = false) (h : Presents fs top) (hfuel : top.depth < fuel) :
    (∃ cut full, scan_directory fs verbose sched pattern fuel ['/'] st = some cut ∧
      scan_directory fs verbose noSignals pattern fuel ['/'] st = some full ∧
      matchEvents cut.log <+: matchEvents full.log ∧
      (cut.flagged = false → cut = full)) ∧
    (∀ (recurse : CStr → Proc → Option Proc) (dir_path d_name : CStr) (rest : List CStr)
      (st1 : Proc), (deliver verbose sched st1).flagged = true →
      scan_entries fs verbose sched pattern recurse dir_path (d_name :: rest) st1 =
        some (deliver verbose sched st1)) ∧
    (∀ (fuel1 : Nat) (dir_path : CStr) (st1 : Proc),
      (deliver verbose sched st1).flagged = true →
      ∃ r, scan_directory fs verbose sched pattern (fuel1 + 1) dir_path st1 = some r ∧
        r.flagged = true ∧ matchEvents r.log = matchEvents st1.log ∧
        statCalls r.calls = statCalls st1.calls ∧
        accessCalls r.calls = accessCalls st1.calls) ∧
    (∀ (fuel1 : Nat) (dir_path : CStr) (st1 : Proc),
      (deliver verbose sched st1).stop_scan = true →
      scan_directory fs verbose sched pattern (fuel1 + 1) dir_path st1 =
        some (deliver verbose sched st1)) ∧
    (∀ st1 : Proc, matchEvents (deliver verbose sched st1).log = matchEvents st1.log ∧
      (deliver verbose sched st1).calls = st1.calls ∧
      (st1.flagged = true → (deliver verbose sched st1).flagged = true)) ∧
    (∀ (recurse : CStr → Proc → Option Proc) (dir_path : CStr) (entries : List CStr)
      (st1 : Proc), st1.flagged = true →
      ∃ r, scan_entries fs verbose sched pattern recurse dir_path entries st1 = some r ∧
        r.flagged = true ∧ matchEvents r.log = matchEvents st1.log ∧ r.calls = st1.calls) := by
  obtain ⟨hs, hr⟩ := (flagged_false_iff st).mp hst
  obtain ⟨full, h1, _⟩ := pass_on_tree fs verbose pattern top fuel st hs hr h hfuel
  obtain ⟨cut, h2, h3⟩ := scan_directory_cut fs verbose sched pattern fuel ['/'] st full hst h1
  refine ⟨⟨cut, full, h2, h1, ?_, ?_⟩, ?_, ?_, ?_, ?_, ?_⟩
  · rcases h3 with ⟨heq, _⟩ | ⟨_, hpre⟩
    · rw [heq]
    · exact hpre
  · intro hc
    rcases h3 with ⟨heq, _⟩ | ⟨hf, _⟩
    · exact heq
    · rw [hc] at hf; exact absurd hf (by decide)
  · intro recurse dir_path d_name rest st1 hf
    exact scan_entries_stops fs verbose sched pattern recurse dir_path d_name rest st1 hf
  · intro fuel1 dir_path st1 hf
    exact scan_directory_stops fs verbose sched pattern fuel1 dir_path st1 hf
  · intro fuel1 dir_path st1 hf
    exact scan_directory_returns_on_stop fs verbose sched pattern fuel1 dir_path st1 hf
  · intro st1
    exact ⟨deliver_matchEvents verbose sched st1, deliver_calls verbose sched st1,
      deliver_flagged verbose sched st1⟩
  · intro recurse dir_path entries st1 hf
    cases entries with
    | nil => exact ⟨st1, by simp [scan_entries], hf, rfl, rfl⟩
    | cons d_name rest =>
      exact ⟨_, scan_entries_flagged fs verbose sched pattern recurse dir_path d_name rest st1 hf,
        deliver_flagged verbose sched st1 hf, deliver_matchEvents verbose sched st1,
        deliver_calls verbose sched st1⟩

/-- The scenario tree meets the hypotheses of the theorem on C2, here with a
Restart handled before read 4. With the empty pattern, which every name
contains, the full pass reports all four entries; a Restart or a Stop handled
before read 4 leaves `//a` alone, and one handled before read 8 leaves `//a`
and `//a/app.log`. -/
theorem interrupted_pass_processes_no_further_entry_witness :
    fresh.flagged = false ∧ Presents sampleFS sampleTree ∧ sampleTree.depth < 4 ∧
    (∃ cut full,
      scan_directory sampleFS false (signalAt 4 ⟨true, false, false⟩) [] 4 ['/'] fresh =
        some cut ∧
      scan_directory sampleFS false noSignals [] 4 ['/'] fresh = some full ∧
      matchEvents cut.log <+: matchEvents full.log ∧
      (cut.flagged = false → cut = full)) ∧
    (scan_directory sampleFS false (signalAt 4 ⟨true, false, false⟩) [] 4 ['/'] fresh).map
      (fun r => matchEvents r.log) = some [("//a".toList, [])] ∧
    (scan_directory sampleFS false (signalAt 4 ⟨false, true, false⟩) [] 4 ['/'] fresh).map
      (fun r => matchEvents r.log) = some [("//a".toList, [])] ∧
    (scan_directory sampleFS false (signalAt 8 ⟨true, false, false⟩) [] 4 ['/'] fresh).map
      (fun r => matchEvents r.log) = some [("//a".toList, []), ("//a/app.log".toList, [])] ∧
    (scan_directory sampleFS false (signalAt 8 ⟨false, true, false⟩) [] 4 ['/'] fresh).map
      (fun r => matchEvents r.log) = some [("//a".toList, []), ("//a/app.log".toList, [])] ∧
    (scan_directory sampleFS false noSignals [] 4 ['/'] fresh).map
      (fun r => matchEvents r.log) =
      some [("//a".toList, []), ("//a/app.log".toList, []), ("//a/tmp".toList, []),
        ("//a/tmp/x".toList, [])] :=
  ⟨by decide, ⟨by decide, by decide⟩, by decide,
    (interrupted_pass_processes_no_further_entry sampleFS sampleTree false
      (signalAt 4 ⟨true, false, false⟩) [] 4 fresh (by decide) ⟨by decide, by decide⟩
      (by decide)).1,
    by decide, by decide, by decide, by decide, by decide⟩

/-- C2, as stated, fails in its last clause. On the scenario tree the loop of
"/" lets the entry `a` through at read 3, reports it and calls
`scan_directory` on `//a`, whose test on entry is read 4. With a Restart
handled before read 4 that test, which looks at `stop_scan` only, lets the
call go on: `//a` is opened and one of its entries is read before the loop
test at read 5 ends the call, so the deeper level is visited although none of
its entries is processed. With a Stop instead the call returns at read 4 and
`//a` is not opened. -/
theorem restart_on_entry_opens_directory :
    Presents sampleFS sampleTree ∧
    (scan_directory sampleFS false (signalAt 4 ⟨true, false, false⟩) [] 4 ['/'] fresh).map
      (fun r => opendirCalls r.calls) = some ["/".toList, "//a".toList] ∧
    (scan_directory sampleFS false (signalAt 4 ⟨true, false, false⟩) [] 4 ['/'] fresh).map
      (fun r => statCalls r.calls) = some ["//a".toList] ∧
    (scan_directory sampleFS false (signalAt 4 ⟨true, false, false⟩) [] 4 ['/'] fresh).map
      (fun r => matchEvents r.log) = some [("//a".toList, [])] ∧
    (scan_directory sampleFS false (signalAt 4 ⟨true, false, false⟩) [] 4 ['/'] fresh).map
      (fun r => r.clock) = some 6 ∧
    (scan_directory sampleFS false (signalAt 4 ⟨false, true, false⟩) [] 4 ['/'] fresh).map
      (fun r => opendirCalls r.calls) = some ["/".toList] ∧
    (scan_directory sampleFS false (signalAt 4 ⟨false, true, false⟩) [] 4 ['/'] fresh).map
      (fun r => statCalls r.calls) = some ["//a".toList] ∧
    (scan_directory sampleFS false (signalAt 4 ⟨false, true, false⟩) [] 4 ['/'] fresh).map
      (fun r => matchEvents r.log) = some [("//a".toList, [])] ∧
    (scan_directory sampleFS false (signalAt 4 ⟨false, true, false⟩) [] 4 ['/'] fresh).map
      (fun r => r.clock) = some 5 :=
  ⟨⟨by decide, by decide⟩, by decide, by decide, by decide, by decide, by decide, by decide,
    by decide, by decide⟩

/-- The scan of a directory the scanner enters, on a tree the file system
shows: it returns. -/
theorem scan_subdirectory (fs : FS) (verbose : Bool) (pattern root : CStr)
    (chain : List CStr) (a : Attr) (kids rest : Forest) (fuel : Nat) (st : Proc)
    (hst : st.flagged = false)
    (hsee : sees fs root chain (Forest.entry a kids rest) = true)
    (hfuel : (Forest.entry a kids rest).depth ≤ fuel)
    (hdot : isDot a.name = false) (hdir : a.traversable = true) :
    ∃ r, scan_directory fs verbose noSignals pattern fuel (pathOf root (chain ++ [a.name])) st =
        some r ∧ r.flagged = false ∧
      matchEvents r.log = matchEvents st.log ++
        (if a.opens then kids.reported root pattern (chain ++ [a.name]) else []) := by
  obtain ⟨hs, hr⟩ := (flagged_false_iff st).mp hst
  simp only [sees, Bool.and_eq_true, Bool.or_eq_true, hdot, Bool.false_eq_true, false_or,
    decide_eq_true_eq, hdir, Bool.not_true] at hsee
  obtain ⟨⟨_, hopen, hbelow⟩, _⟩ := hsee
  simp only [Forest.depth, max_le_iff] at hfuel
  obtain ⟨f, rfl⟩ : ∃ f, fuel = f + 1 := ⟨fuel - 1, by omega⟩
  have g1 := Grows.quiet verbose st hs hr
  rw [scan_directory]
  generalize deliver verbose noSignals st = st1 at g1 ⊢
  simp only [g1.stop, Bool.false_eq_true, if_false, hopen]
  have g2 := g1.then (Grows.opendir (pathOf root (chain ++ [a.name])) st1 g1.stop g1.restart)
  generalize called (Call.opendir (pathOf root (chain ++ [a.name]))) st1 = st2 at g2 ⊢
  cases ho : a.opens with
  | false =>
    exact ⟨st2, by simp, (flagged_false_iff st2).mpr ⟨g2.stop, g2.restart⟩,
      by simpa using g2.log⟩
  | true =>
    simp only [if_true]
    obtain ⟨r, k1, g3⟩ := scan_forest fs verbose pattern root kids f (chain ++ [a.name])
      st2 g2.stop g2.restart (hbelow.resolve_left (by simp [ho])) (by omega)
    exact ⟨r, k1, (flagged_false_iff r).mpr ⟨g3.stop, g3.restart⟩,
      by simpa using (g2.then g3).log⟩

/-- C9. In a pass with no flag set, on any tree the file system shows, a
directory entry the process can read and search whose name contains the pattern
is reported and then entered: the loop over the entries returns, its trace is
the trace so far, then the match event of the directory, then the events
`below.log` of the scan of the directory, then what the later entries add; and
that scan of the directory is the same whatever was logged before it (with or
without the match event), its match events being those of the entries below. -/
theorem matching_directory_reported_then_entered (fs : FS) (verbose : Bool)
    (pattern root : CStr) (chain : List CStr) (a : Attr) (kids rest : Forest) (fuel : Nat)
    (st : Proc) (hst : st.flagged = false)
    (hsee : sees fs root chain (Forest.entry a kids rest) = true)
    (hfuel : (Forest.entry a kids rest).depth ≤ fuel)
    (hdot : isDot a.name = false) (hdir : a.traversable = true)
    (hmatch : strstr a.name pattern = true) :
    ∃ below r later,
      scan_directory fs verbose noSignals pattern fuel (pathOf root (chain ++ [a.name]))
        { st with clock := st.clock + 1, log := [] } = some below ∧
      scan_entries fs verbose noSignals pattern (scan_directory fs verbose noSignals pattern fuel)
        (pathOf root chain) (a.name :: rest.names) st = some r ∧
      r.log = st.log ++ [Event.time, Event.found (pathOf root (chain ++ [a.name])) pattern] ++
        below.log ++ later ∧
      (∀ earlier : List Event,
        scan_directory fs verbose noSignals pattern fuel (pathOf root (chain ++ [a.name]))
          { st with clock := st.clock + 1, log := earlier } = some (withEarlier earlier below)) ∧
      matchEvents below.log =
        (if a.opens then kids.reported root pattern (chain ++ [a.name]) else []) := by
  obtain ⟨hs, hr⟩ := (flagged_false_iff st).mp hst
  have hst0 : ({ st with clock := st.clock + 1, log := [] } : Proc).flagged = false :=
    (flagged_false_iff _).mpr ⟨hs, hr⟩
  obtain ⟨below, hb1, hb2, hb3⟩ := scan_subdirectory fs verbose pattern root chain a kids rest
    fuel _ hst0 hsee hfuel hdot hdir
  have hframe : ∀ earlier : List Event,
      scan_directory fs verbose noSignals pattern fuel (pathOf root (chain ++ [a.name]))
        { st with clock := st.clock + 1, log := earlier } = some (withEarlier earlier below) := by
    intro earlier
    have := scan_directory_frame fs verbose noSignals pattern earlier fuel
      (pathOf root (chain ++ [a.name])) { st with clock := st.clock + 1, log := [] }
    rw [hb1] at this
    simpa [withEarlier] using this
  have hsee' := hsee
  simp only [sees, Bool.and_eq_true, Bool.or_eq_true, hdot, Bool.false_eq_true, false_or,
    decide_eq_true_eq, hdir, Bool.not_true] at hsee'
  obtain ⟨⟨⟨⟨hstat, _⟩, haccx⟩, _⟩, hrest⟩ := hsee'
  have htr := hdir
  simp only [Attr.traversable, Bool.and_eq_true, decide_eq_true_eq] at htr
  obtain ⟨⟨hdirstat, har⟩, hax⟩ := htr
  have hacc : has_access fs (pathOf root (chain ++ [a.name])) true = true := by
    have := haccx.resolve_left (by simp [hdirstat])
    simpa [has_access, har, hax] using this
  simp only [Forest.depth, max_le_iff] at hfuel
  -- the scan of the directory from the state with no trace and no calls
  have hbase := scan_directory_before fs verbose noSignals pattern [] st.calls fuel
    (pathOf root (chain ++ [a.name]))
    { st with clock := st.clock + 1, log := [], calls := [] }
  have hst0eq : withBefore [] st.calls
      ({ st with clock := st.clock + 1, log := [], calls := [] } : Proc) =
      { st with clock := st.clock + 1, log := [] } := by
    simp [withBefore]
  rw [hst0eq, hb1] at hbase
  cases hb0 : scan_directory fs verbose noSignals pattern fuel
      (pathOf root (chain ++ [a.name]))
      { st with clock := st.clock + 1, log := [], calls := [] } with
  | none => rw [hb0] at hbase; simp at hbase
  | some b0 =>
    rw [hb0] at hbase
    simp only [Option.map_some', Option.some.injEq] at hbase
    have hentry : scan_entry fs verbose pattern
        (scan_directory fs verbose noSignals pattern fuel)
        (pathOf root chain) a.name (deliver verbose noSignals st) =
        some (withBefore (st.log ++ [Event.time,
          Event.found (pathOf root (chain ++ [a.name])) pattern])
          (st.calls ++ [Call.stat (pathOf root (chain ++ [a.name])),
            Call.access (pathOf root (chain ++ [a.name])) (R_OK ||| X_OK)]) b0) := by
      simp only [scan_entry, hdot, Bool.false_eq_true, if_false, snprintf_pathOf, hstat,
        hdirstat, hacc, Bool.not_true, hmatch, if_true]
      have := scan_directory_before fs verbose noSignals pattern
        (st.log ++ [Event.time, Event.found (pathOf root (chain ++ [a.name])) pattern])
        (st.calls ++ [Call.stat (pathOf root (chain ++ [a.name])),
            Call.access (pathOf root (chain ++ [a.name])) (R_OK ||| X_OK)]) fuel
        (pathOf root (chain ++ [a.name]))
        { st with clock := st.clock + 1, log := [], calls := [] }
      rw [hb0] at this
      simp only [Option.map_some'] at this
      rw [← this]
      congr 1
      simp [deliver_noSignals, syslog, called, withBefore]
    have hmid : (withBefore (st.log ++ [Event.time,
        Event.found (pathOf root (chain ++ [a.name])) pattern])
        (st.calls ++ [Call.stat (pathOf root (chain ++ [a.name])),
            Call.access (pathOf root (chain ++ [a.name])) (R_OK ||| X_OK)]) b0).flagged =
        false := by
      rw [hbase] at hb2; exact hb2
    obtain ⟨ms, mr⟩ := (flagged_false_iff _).mp hmid
    obtain ⟨r, hr1, _⟩ := scan_forest fs verbose pattern root rest fuel chain _ ms mr
      hrest hfuel.2
    obtain ⟨later, hlater⟩ := scan_entries_mono fs verbose noSignals pattern fuel _ _ _ r hr1
    refine ⟨below, r, later, hb1, ?_, ?_, hframe, by simpa using hb3⟩
    · rw [scan_entries_cons, quiet_flagged, hst]
      simp only [Bool.false_eq_true, if_false, hentry, Option.some_bind]
      exact hr1
    · rw [← hlater, hbase]
      simp [withBefore]

/-- The scenario of C9: `/a/app.log` and `/a/tmp/x`. The directory `tmp` of `/a`
meets the hypotheses for the pattern "tmp"; the verbose pass for "tmp" reports
it and then compares `x` inside it, and the pass for "log" reports `app.log`. -/
theorem matching_directory_reported_then_entered_witness :
    fresh.flagged = false ∧
    sees sampleFS ['/'] ["a".toList] (Forest.entry sampleTmp sampleTmpKids Forest.nil) = true ∧
    (∃ below r later,
      scan_directory sampleFS true noSignals "tmp".toList 2
        (pathOf ['/'] (["a".toList] ++ [sampleTmp.name]))
        { fresh with clock := fresh.clock + 1, log := [] } = some below ∧
      scan_entries sampleFS true noSignals "tmp".toList
        (scan_directory sampleFS true noSignals "tmp".toList 2)
        (pathOf ['/'] ["a".toList]) (sampleTmp.name :: Forest.nil.names) fresh = some r ∧
      r.log = fresh.log ++ [Event.time, Event.found
        (pathOf ['/'] (["a".toList] ++ [sampleTmp.name])) "tmp".toList] ++ below.log ++ later ∧
      (∀ earlier : List Event,
        scan_directory sampleFS true noSignals "tmp".toList 2
          (pathOf ['/'] (["a".toList] ++ [sampleTmp.name]))
          { fresh with clock := fresh.clock + 1, log := earlier } =
            some (withEarlier earlier below)) ∧
      matchEvents below.log =
        (if sampleTmp.opens then
          sampleTmpKids.reported ['/'] "tmp".toList (["a".toList] ++ [sampleTmp.name])
        else [])) ∧
    (scan_directory sampleFS true noSignals "tmp".toList 4 ['/'] fresh).map (fun r => r.log) =
      some [Event.compare "a".toList "tmp".toList, Event.compare "app.log".toList "tmp".toList,
        Event.time, Event.found "//a/tmp".toList "tmp".toList,
        Event.compare "x".toList "tmp".toList] ∧
    (scan_directory sampleFS false noSignals "log".toList 4 ['/'] fresh).map (fun r => r.log) =
      some [Event.time, Event.found "//a/app.log".toList "log".toList] :=
  ⟨by decide, by decide,
    matching_directory_reported_then_entered sampleFS true "tmp".toList ['/'] ["a".toList]
      sampleTmp sampleTmpKids Forest.nil 2 fresh (by decide) (by decide) (by decide) (by decide)
      (by decide) (by decide),
    by decide, by decide⟩

theorem sleepCalls_append (xs ys : List Event) :
    sleepCalls (xs ++ ys) = sleepCalls xs ++ sleepCalls ys := by
  induction xs with
  | nil => rfl
  | cons e es ih => cases e <;> simp [sleepCalls, ih]

theorem deliver_sleepCalls (verbose : Bool) (sched : Nat → Pending) (st : Proc) :
    sleepCalls (deliver verbose sched st).log = sleepCalls st.log := by
  cases hu1 : (sched st.clock).usr1 <;> cases hu2 : (sched st.clock).usr2 <;> cases verbose <;>
    simp [deliver, sigusr1_handler, sigusr2_handler, syslog, hu1, hu2, sleepCalls_append,
      sleepCalls]

theorem child_begin_flagged (verbose : Bool) (pattern : CStr) (st : Proc) :
    (child_begin verbose pattern st).flagged = false := by
  cases verbose <;> rfl

/-- On a tree the file system shows, a pass returns under every schedule. -/
theorem pass_returns (fs : FS) (top : Forest) (verbose : Bool) (sched : Nat → Pending)
    (pattern : CStr) (fuel : Nat) (st : Proc) (hst : st.flagged = false)
    (h : Presents fs top) (hfuel : top.depth < fuel) :
    ∃ r, scan_directory fs verbose sched pattern fuel ['/'] st = some r := by
  obtain ⟨hs, hr⟩ := (flagged_false_iff st).mp hst
  obtain ⟨full, h1, _⟩ := pass_on_tree fs verbose pattern top fuel st hs hr h hfuel
  obtain ⟨cut, h2, _⟩ := scan_directory_cut fs verbose sched pattern fuel ['/'] st full hst h1
  exact ⟨cut, h2⟩

/-- C4. For every turn of the loop of `child_process`, on every tree, under
every schedule of signals and from every state: both flags are clear when the
scan starts; the scan returns; when the restart flag is set at the read after
the scan (whether or not the stop flag is set too), the turn ends without a
`sleep` call and the next turn follows at once; when it is not set (in
particular after a pass cut short by Stop alone), the turn makes exactly one
`sleep` call before the next turn. -/
theorem child_pass_clears_flags_and_sleeps_unless_restart (fs : FS) (top : Forest)
    (verbose : Bool) (sched : Nat → Pending) (fuel : Nat) (pattern : CStr) (st : Proc)
    (h : Presents fs top) (hfuel : top.depth < fuel) :
    (child_begin verbose pattern st).stop_scan = false ∧
    (child_begin verbose pattern st).restart_scan = false ∧
    ∃ scanned,
      scan_directory fs verbose sched pattern fuel ['/'] (child_begin verbose pattern st) =
        some scanned ∧
      child_pass fs verbose sched fuel pattern st =
        some (child_finish verbose sched pattern scanned) ∧
      (∀ turns, child_process fs verbose sched fuel pattern (turns + 1) st =
        child_process fs verbose sched fuel pattern turns
          (child_finish verbose sched pattern scanned)) ∧
      ((deliver verbose sched scanned).restart_scan = true →
        sleepCalls (child_finish verbose sched pattern scanned).log = sleepCalls scanned.log) ∧
      ((deliver verbose sched scanned).restart_scan = false →
        sleepCalls (child_finish verbose sched pattern scanned).log =
          sleepCalls scanned.log ++ [DEFAULT_SCAN_INTERVAL]) := by
  have hb := child_begin_flagged verbose pattern st
  obtain ⟨hs, hr⟩ := (flagged_false_iff _).mp hb
  obtain ⟨scanned, hscan⟩ := pass_returns fs top verbose sched pattern fuel _ hb h hfuel
  refine ⟨hs, hr, scanned, hscan, ?_, ?_, ?_, ?_⟩
  · simp [child_pass, hscan]
  · intro turns
    simp [child_process, child_pass, hscan]
  · intro hre
    have h1 := deliver_sleepCalls verbose sched scanned
    unfold child_finish
    generalize deliver verbose sched scanned = d at h1 hre ⊢
    cases verbose <;> cases hd : d.stop_scan <;>
      simp [syslog, sleepCalls_append, sleepCalls, h1, hre, hd]
  · intro hre
    have h1 := deliver_sleepCalls verbose sched scanned
    unfold child_finish
    generalize deliver verbose sched scanned = d at h1 hre ⊢
    cases verbose <;> cases hd : d.stop_scan <;>
      simp [sleep, syslog, sleepCalls_append, sleepCalls, h1, hre, hd, deliver_sleepCalls]

/-- A turn started with both flags set, on the scenario tree, with a Stop handled
during the scan, meets the hypotheses of the theorem on C4. -/
theorem child_pass_clears_flags_and_sleeps_unless_restart_witness :
    Presents sampleFS sampleTree ∧ sampleTree.depth < 4 ∧
    (child_begin false "log".toList ⟨true, true, 0, [], []⟩).stop_scan = false ∧
    (child_begin false "log".toList ⟨true, true, 0, [], []⟩).restart_scan = false ∧
    ∃ scanned,
      scan_directory sampleFS false (signalAt 4 ⟨false, true, false⟩) "log".toList 4 ['/']
        (child_begin false "log".toList ⟨true, true, 0, [], []⟩) = some scanned ∧
      child_pass sampleFS false (signalAt 4 ⟨false, true, false⟩) 4 "log".toList ⟨true, true, 0, [], []⟩ =
        some (child_finish false (signalAt 4 ⟨false, true, false⟩) "log".toList scanned) ∧
      (∀ turns, child_process sampleFS false (signalAt 4 ⟨false, true, false⟩) 4 "log".toList
          (turns + 1) ⟨true, true, 0, [], []⟩ =
        child_process sampleFS false (signalAt 4 ⟨false, true, false⟩) 4 "log".toList turns
          (child_finish false (signalAt 4 ⟨false, true, false⟩) "log".toList scanned)) ∧
      ((deliver false (signalAt 4 ⟨false, true, false⟩) scanned).restart_scan = true →
        sleepCalls (child_finish false (signalAt 4 ⟨false, true, false⟩) "log".toList scanned).log =
          sleepCalls scanned.log) ∧
      ((deliver false (signalAt 4 ⟨false, true, false⟩) scanned).restart_scan = false →
        sleepCalls (child_finish false (signalAt 4 ⟨false, true, false⟩) "log".toList scanned).log =
          sleepCalls scanned.log ++ [DEFAULT_SCAN_INTERVAL]) :=
  ⟨⟨by decide, by decide⟩, by decide,
    child_pass_clears_flags_and_sleeps_unless_restart sampleFS sampleTree false
      (signalAt 4 ⟨false, true, false⟩) 4 "log".toList ⟨true, true, 0, [], []⟩ ⟨by decide, by decide⟩
      (by decide)⟩

/-- C3 fails on the code. With the command line `demon log 5` the scan interval
parsed is 5 and the supervisor sleeps 5 seconds per turn of its loop, but the
worker's `child_process` asks `sleep` for `DEFAULT_SCAN_INTERVAL` = 60 seconds
after its pass: the configured interval never reaches the worker. -/
theorem worker_sleep_ignores_configured_interval :
    parse_args ["demon".toList, "log".toList, "5".toList] =
      Except.ok ⟨false, 5, ["log".toList]⟩ ∧
    (child_pass sampleFS false noSignals 4 "log".toList fresh).map (fun r => sleepCalls r.log) =
      some [60] ∧
    (main_start true samplePids ["demon".toList, "log".toList, "5".toList]).supervisor.map
      (fun s => s.scan_interval) = some 5 ∧
    ((main_start true samplePids ["demon".toList, "log".toList, "5".toList]).supervisor.bind
      fun s => (tick 0 0 s).completed).map (fun t => sleepCalls t.log) = some [5] :=
  ⟨rfl, by decide, by decide, by decide⟩

/-- C5 fails on the code. On the scenario tree the worker for "log" ends its
first scan after reads 0 to 12, tests the flags at point 13, passes point 14
on its way to `sleep` and is in `sleep(60)` at point 15. A Stop (SIGUSR2, and
no Restart) handled during that sleep cuts it short: the handler runs, `sleep`
returns, and `child_process`, which ignores what `sleep` returns, goes to the
top of its loop, clears `stop_scan` and scans again at once, where the claim
has the worker sleep until the timer elapses. A SIGCHLD, whose handler the
worker inherits, cuts the sleep short in the same way, and so does a Restart.
A Stop handled at point 14, before `sleep` is entered, does not cut it; with no
signal the worker sleeps the 60 seconds. -/
theorem stop_during_sleep_starts_next_pass :
    (child_process sampleFS true (signalAt 15 ⟨false, true, false⟩) 4 "log".toList 2 fresh).map
      (fun r => r.log) =
      some [Event.childStart "log".toList, Event.compare "a".toList "log".toList, Event.time,
        Event.found "//a/app.log".toList "log".toList,
        Event.compare "tmp".toList "log".toList, Event.compare "x".toList "log".toList,
        Event.childSleep "log".toList, Event.usr2, Event.sleep 60 true,
        Event.childWake "log".toList,
        Event.childStart "log".toList, Event.compare "a".toList "log".toList, Event.time,
        Event.found "//a/app.log".toList "log".toList,
        Event.compare "tmp".toList "log".toList, Event.compare "x".toList "log".toList,
        Event.childSleep "log".toList, Event.sleep 60 false, Event.childWake "log".toList] ∧
    (child_process sampleFS true (signalAt 15 ⟨false, false, true⟩) 4 "log".toList 1 fresh).map
      (fun r => r.log) =
      some [Event.childStart "log".toList, Event.compare "a".toList "log".toList, Event.time,
        Event.found "//a/app.log".toList "log".toList,
        Event.compare "tmp".toList "log".toList, Event.compare "x".toList "log".toList,
        Event.childSleep "log".toList, Event.sleep 60 true, Event.childWake "log".toList] ∧
    (child_process sampleFS true (signalAt 15 ⟨true, false, false⟩) 4 "log".toList 1 fresh).map
      (fun r => r.log) =
      some [Event.childStart "log".toList, Event.compare "a".toList "log".toList, Event.time,
        Event.found "//a/app.log".toList "log".toList,
        Event.compare "tmp".toList "log".toList, Event.compare "x".toList "log".toList,
        Event.childSleep "log".toList, Event.usr1, Event.sleep 60 true,
        Event.childWake "log".toList] ∧
    (child_process sampleFS true (signalAt 14 ⟨false, true, false⟩) 4 "log".toList 1 fresh).map
      (fun r => r.log) =
      some [Event.childStart "log".toList, Event.compare "a".toList "log".toList, Event.time,
        Event.found "//a/app.log".toList "log".toList,
        Event.compare "tmp".toList "log".toList, Event.compare "x".toList "log".toList,
        Event.childSleep "log".toList, Event.usr2, Event.sleep 60 false,
        Event.childWake "log".toList] ∧
    (child_process sampleFS true noSignals 4 "log".toList 1 fresh).map (fun r => r.log) =
      some [Event.childStart "log".toList, Event.compare "a".toList "log".toList, Event.time,
        Event.found "//a/app.log".toList "log".toList,
        Event.compare "tmp".toList "log".toList, Event.compare "x".toList "log".toList,
        Event.childSleep "log".toList, Event.sleep 60 false, Event.childWake "log".toList] := by
  refine ⟨by decide, by decide, by decide, by decide, by decide⟩

/-! ## Startup: claim C8 -/

theorem isPatternArg_flag : isPatternArg ['-', 'v'] = false := by decide

theorem isPatternArg_digit (arg : CStr) (hd : isdigit (arg.headD (Char.ofNat 0)) = true) :
    isPatternArg arg = false := by
  unfold isPatternArg
  rw [hd]
  simp

theorem isPatternArg_other (arg : CStr) (hv : arg ≠ ['-', 'v'])
    (hd : ¬ isdigit (arg.headD (Char.ofNat 0)) = true) : isPatternArg arg = true := by
  unfold isPatternArg
  rw [Bool.not_eq_true] at hd
  rw [hd, decide_eq_false hv]
  rfl

theorem filter_skip (arg : CStr) (rest : List CStr) (h : isPatternArg arg = false) :
    (arg :: rest).filter isPatternArg = rest.filter isPatternArg := by
  rw [List.filter_cons, h]; rfl

theorem filter_keep (arg : CStr) (rest : List CStr) (h : isPatternArg arg = true) :
    (arg :: rest).filter isPatternArg = arg :: rest.filter isPatternArg := by
  rw [List.filter_cons, h]; rfl

theorem parse_loop_ok : ∀ (args : List CStr) (c : Config),
    c.patterns.length + (args.filter isPatternArg).length ≤ MAX_PATTERNS →
    ∃ c1, parse_loop args c = Except.ok c1 ∧
      c1.patterns = c.patterns ++ args.filter isPatternArg := by
  intro args
  induction args with
  | nil => intro c _; exact ⟨c, rfl, by simp⟩
  | cons arg rest ih =>
    intro c hlen
    rw [parse_loop]
    by_cases hv : arg = ['-', 'v']
    · subst hv
      rw [filter_skip _ _ isPatternArg_flag] at hlen ⊢
      simp only [if_true]
      exact ih _ hlen
    · simp only [hv, if_false]
      by_cases hd : isdigit (arg.headD (Char.ofNat 0)) = true
      · rw [filter_skip _ _ (isPatternArg_digit arg hd)] at hlen ⊢
        simp only [hd, if_true]
        exact ih _ hlen
      · rw [filter_keep _ _ (isPatternArg_other arg hv hd)] at hlen ⊢
        simp only [hd, Bool.false_eq_true, if_false]
        simp only [List.length_cons] at hlen
        have hlt : ¬ c.patterns.length ≥ MAX_PATTERNS := by omega
        simp only [hlt, if_false]
        obtain ⟨c1, h1, h2⟩ := ih { c with patterns := c.patterns ++ [arg] }
          (by simp only [List.length_append, List.length_singleton]; omega)
        exact ⟨c1, h1, by rw [h2]; simp⟩

theorem parse_loop_error : ∀ (args : List CStr) (c : Config),
    c.patterns.length ≤ MAX_PATTERNS →
    MAX_PATTERNS < c.patterns.length + (args.filter isPatternArg).length →
    parse_loop args c = Except.error EXIT_FAILURE := by
  intro args
  induction args with
  | nil => intro c h1 h2; simp at h2; omega
  | cons arg rest ih =>
    intro c hle hlen
    rw [parse_loop]
    by_cases hv : arg = ['-', 'v']
    · subst hv
      rw [filter_skip _ _ isPatternArg_flag] at hlen
      simp only [if_true]
      exact ih _ hle hlen
    · simp only [hv, if_false]
      by_cases hd : isdigit (arg.headD (Char.ofNat 0)) = true
      · rw [filter_skip _ _ (isPatternArg_digit arg hd)] at hlen
        simp only [hd, if_true]
        exact ih _ hle hlen
      · rw [filter_keep _ _ (isPatternArg_other arg hv hd)] at hlen
        simp only [hd, Bool.false_eq_true, if_false]
        simp only [List.length_cons] at hlen
        by_cases hfull : c.patterns.length ≥ MAX_PATTERNS
        · simp [hfull]
        · simp only [hfull, if_false]
          apply ih
          · simp only [List.length_append, List.length_singleton]; omega
          · simp only [List.length_append, List.length_singleton]; omega

theorem patternArgs_short (argv : List CStr) (h : argv.length < 2) : patternArgs argv = [] := by
  unfold patternArgs
  have : argv.drop 1 = [] := by
    apply List.drop_eq_nil_of_le; omega
  rw [this]; rfl

/-- What the checks before the process goes to the background decide. -/
theorem parse_args_spec (argv : List CStr) :
    ((patternArgs argv = [] ∨ MAX_PATTERNS < (patternArgs argv).length) →
      parse_args argv = Except.error EXIT_FAILURE) ∧
    (patternArgs argv ≠ [] → (patternArgs argv).length ≤ MAX_PATTERNS →
      ∃ c, parse_args argv = Except.ok c ∧ c.patterns = patternArgs argv) := by
  constructor
  · intro h
    unfold parse_args
    by_cases hshort : argv.length < 2
    · simp [hshort]
    · simp only [hshort, if_false]
      rcases h with h | h
      · obtain ⟨c1, h1, h2⟩ := parse_loop_ok (argv.drop 1) ⟨false, DEFAULT_SCAN_INTERVAL, []⟩
          (by
            have : (List.filter isPatternArg (argv.drop 1)) = [] := h
            rw [this]; exact Nat.zero_le _)
        have hnil : c1.patterns = [] := by
          rw [h2]; simpa [patternArgs] using h
        rw [h1]
        simp [hnil]
      · rw [parse_loop_error (argv.drop 1) ⟨false, DEFAULT_SCAN_INTERVAL, []⟩ (by simp)
          (by simpa [patternArgs] using h)]
  · intro hne hle
    unfold parse_args
    have hshort : ¬ argv.length < 2 := fun hs => hne (patternArgs_short argv hs)
    simp only [hshort, if_false]
    obtain ⟨c1, h1, h2⟩ := parse_loop_ok (argv.drop 1) ⟨false, DEFAULT_SCAN_INTERVAL, []⟩
      (by simpa [patternArgs] using hle)
    have h3 : c1.patterns = patternArgs argv := by rw [h2]; simp [patternArgs]
    rw [h1]
    have hlen : ¬ c1.patterns.length = 0 := by
      rw [h3]; intro h0; exact hne (List.length_eq_zero.mp h0)
    simp only [hlen, if_false]
    exact ⟨c1, rfl, h3⟩

theorem getD_set_self (l : List Int) (i : Nat) (a : Int) (h : i < l.length) :
    (l.set i a).getD i 0 = a := by
  simp [List.getD_eq_getElem?_getD, List.getElem?_set, h]

theorem getD_set_other (l : List Int) (i j : Nat) (a : Int) (h : i ≠ j) :
    (l.set i a).getD j 0 = l.getD j 0 := by
  simp [List.getD_eq_getElem?_getD, List.getElem?_set, h]

/-- The loop creating the children, when every `fork` succeeds in the parent:
the supervisor loop is reached, one child was created per pattern, in order, and
its process id is stored in `children`. -/
theorem spawn_loop_supervising (fork : Nat → Int) : ∀ (pats : List CStr) (i : Nat) (s : Sup),
    (∀ k, k < pats.length → 0 < fork (i + k)) → i + pats.length ≤ s.children.length →
    ∃ s1, spawn_loop fork pats i s = Start.supervising s1 ∧
      s1.log = s.log ++ List.zipWith (fun k p => Event.fork (fork k) p)
        (List.range' i pats.length) pats ∧
      s1.num_patterns = s.num_patterns ∧ s1.children.length = s.children.length ∧
      (∀ j, i ≤ j → j < i + pats.length → s1.children.getD j 0 = fork j) ∧
      (∀ j, j < i → s1.children.getD j 0 = s.children.getD j 0) := by
  intro pats
  induction pats with
  | nil =>
    intro i s _ _
    exact ⟨s, rfl, by simp, rfl, rfl, fun j h1 h2 => by simp at h2; omega, fun _ _ => rfl⟩
  | cons p rest ih =>
    intro i s hpos hlen
    simp only [List.length_cons] at hlen
    have h0 : 0 < fork i := by simpa using hpos 0 (by simp)
    have hne : ¬ fork i = 0 := by omega
    rw [spawn_loop]
    simp only [hne, if_false, gt_iff_lt, h0, if_true]
    obtain ⟨s1, e1, e2, e3, e4, e5, e6⟩ := ih (i + 1)
      { s with
        children := s.children.set i (fork i), live := s.live ++ [fork i],
        log := s.log ++ [Event.fork (fork i) p] }
      (fun k hk => by
        have := hpos (k + 1) (by simp only [List.length_cons]; omega)
        rwa [show i + 1 + k = i + (k + 1) by omega])
      (by simp only [List.length_set]; omega)
    refine ⟨s1, e1, ?_, e3, ?_, ?_, ?_⟩
    · rw [e2]
      simp [List.range'_succ]
    · rw [e4]; simp
    · intro j h1 h2
      rcases Nat.eq_or_lt_of_le h1 with rfl | hlt
      · rw [e6 i (by omega)]
        exact getD_set_self _ _ _ (by omega)
      · exact e5 j (by omega) (by simp only [List.length_cons] at h2; omega)
    · intro j hj
      rw [e6 j (by omega)]
      exact getD_set_other _ _ _ _ (by omega)

/-- When the loop creating the children reaches the supervisor loop, every
`fork` returned a positive process id. -/
theorem spawn_loop_positive (fork : Nat → Int) : ∀ (pats : List CStr) (i : Nat) (s s1 : Sup),
    spawn_loop fork pats i s = Start.supervising s1 →
    ∀ k, k < pats.length → 0 < fork (i + k) := by
  intro pats
  induction pats with
  | nil => intro i s s1 _ k hk; simp at hk
  | cons p rest ih =>
    intro i s s1 h k hk
    rw [spawn_loop] at h
    by_cases h0 : fork i = 0
    · simp [h0] at h
    · simp only [h0, if_false] at h
      by_cases hpos : fork i > 0
      · simp only [hpos, if_true] at h
        cases k with
        | zero => simpa using hpos
        | succ k =>
          have := ih (i + 1) _ s1 h k (by simp only [List.length_cons] at hk; omega)
          rwa [show i + 1 + k = i + (k + 1) by omega] at this
      · simp [hpos] at h

theorem forkCalls_append (xs ys : List Event) :
    forkCalls (xs ++ ys) = forkCalls xs ++ forkCalls ys := by
  induction xs with
  | nil => rfl
  | cons e es ih => cases e <;> simp [forkCalls, ih]

theorem forkCalls_zipWith (fork : Nat → Int) : ∀ (ks : List Nat) (pats : List CStr),
    forkCalls (List.zipWith (fun k p => Event.fork (fork k) p) ks pats) =
      List.zipWith (fun k p => (fork k, p)) ks pats := by
  intro ks
  induction ks with
  | nil => intro pats; simp [forkCalls]
  | cons k ks ih =>
    intro pats
    cases pats with
    | nil => simp [forkCalls]
    | cons p ps => simp [forkCalls, ih]

/-- The start of `main` on an accepted command line when `daemon` and every
`fork` succeed. -/
theorem main_start_supervising (fork : Nat → Int) (argv : List CStr) (c : Config)
    (hc : parse_args argv = Except.ok c) (hlen : c.patterns.length ≤ MAX_PATTERNS)
    (hpos : ∀ i, i < c.patterns.length → 0 < fork i) :
    ∃ s, main_start true fork argv = Start.supervising s ∧
      s.log = [Event.daemon, Event.started c.verbose] ++
        List.zipWith (fun k p => Event.fork (fork k) p) (List.range c.patterns.length)
          c.patterns ∧
      s.num_patterns = c.patterns.length ∧
      (∀ j, j < c.patterns.length → s.children.getD j 0 = fork j) := by
  unfold main_start
  rw [hc]
  simp only [Bool.not_true, Bool.false_eq_true, if_false]
  obtain ⟨s1, e1, e2, e3, _, e5, _⟩ := spawn_loop_supervising fork c.patterns 0
    { initial with
      verbose := c.verbose, scan_interval := c.scan_interval,
      num_patterns := c.patterns.length,
      log := [Event.daemon, Event.started c.verbose] }
    (fun k hk => by simpa using hpos k hk)
    (by simpa [initial] using hlen)
  refine ⟨s1, e1, ?_, e3, fun j hj => e5 j (Nat.zero_le _) (by omega)⟩
  rw [e2, List.range_eq_range']

/-! ### Claim C8 -/

theorem killCalls_append (xs ys : List Event) :
    killCalls (xs ++ ys) = killCalls xs ++ killCalls ys := by
  induction xs with
  | nil => rfl
  | cons e es ih => cases e <;> simp [killCalls, ih]

theorem reapedPids_append (xs ys : List Event) :
    reapedPids (xs ++ ys) = reapedPids xs ++ reapedPids ys := by
  induction xs with
  | nil => rfl
  | cons e es ih => cases e <;> simp [reapedPids, ih]

theorem killCalls_kills (sig : Sig) (pids : List Int) :
    killCalls (pids.map fun pid => Event.kill pid sig) = pids.map fun pid => (pid, sig) := by
  induction pids with
  | nil => rfl
  | cons p ps ih => simp [killCalls, ih]

theorem reapedPids_kills (sig : Sig) (pids : List Int) :
    reapedPids (pids.map fun pid => Event.kill pid sig) = [] := by
  induction pids with
  | nil => rfl
  | cons p ps ih => simp [reapedPids, ih]

/-- The loop of `broadcast_signal` only adds `kill` calls to the trace: one for
each positive process id in the slots it runs over, in order. -/
theorem broadcast_loop_eq (sig : Sig) : ∀ (n i : Nat) (s : Sup),
    broadcast_loop sig n i s =
      { s with log := s.log ++
        ((((List.range' i n).map fun j => s.children.getD j 0).filter fun pid => pid > 0).map
          fun pid => Event.kill pid sig) } := by
  intro n
  induction n with
  | zero => intro i s; simp [broadcast_loop]
  | succ n ih =>
    intro i s
    rw [broadcast_loop]
    by_cases hpos : s.children.getD i 0 > 0
    · simp only [hpos, if_true]
      rw [ih]
      simp only [kill, List.range'_succ, List.map_cons, List.filter_cons, hpos, decide_True,
        if_true, List.append_assoc, List.singleton_append]
    · simp only [hpos, if_false]
      rw [ih]
      simp only [List.range'_succ, List.map_cons, List.filter_cons, hpos, decide_False,
        Bool.false_eq_true, if_false]

theorem broadcast_signal_eq (sig : Sig) (s : Sup) :
    broadcast_signal sig s =
      { s with log := s.log ++ s.targets.map fun pid => Event.kill pid sig } := by
  rw [broadcast_signal, broadcast_loop_eq, Sup.targets, List.range_eq_range']

/-- What the two relays of a turn of the supervisor loop do. -/
theorem relay_spec (s : Sup) :
    (relay s).log = s.log ++
      (if s.restart_scan then
        Event.relaying Sig.SIGUSR1 :: s.targets.map fun pid => Event.kill pid Sig.SIGUSR1
       else []) ++
      (if s.stop_scan then
        Event.relaying Sig.SIGUSR2 :: s.targets.map fun pid => Event.kill pid Sig.SIGUSR2
       else []) ∧
    (relay s).restart_scan = false ∧ (relay s).stop_scan = false ∧
    (relay s).child_terminated = s.child_terminated ∧ (relay s).zombies = s.zombies ∧
    (relay s).children = s.children ∧ (relay s).num_patterns = s.num_patterns ∧
    (relay s).scan_interval = s.scan_interval ∧ (relay s).live = s.live := by
  unfold relay
  cases hr : s.restart_scan <;> cases hs : s.stop_scan <;>
    simp [hr, hs, broadcast_signal_eq, Sup.targets]

theorem map_fst_zipWith (fork : Nat → Int) : ∀ (ks : List Nat) (pats : List CStr),
    ks.length = pats.length →
    (List.zipWith (fun k p => (fork k, p)) ks pats).map Prod.fst = ks.map fork := by
  intro ks
  induction ks with
  | nil => intro pats _; simp
  | cons k ks ih =>
    intro pats h
    cases pats with
    | nil => simp at h
    | cons p ps =>
      simp only [List.length_cons, Nat.add_right_cancel_iff] at h
      simp [ih ps h]

theorem parse_args_ok (argv : List CStr) (c : Config) (h : parse_args argv = Except.ok c) :
    c.patterns = patternArgs argv ∧ c.patterns.length ≤ MAX_PATTERNS := by
  by_cases hbad : patternArgs argv = [] ∨ MAX_PATTERNS < (patternArgs argv).length
  · rw [(parse_args_spec argv).1 hbad] at h
    cases h
  · have hne : patternArgs argv ≠ [] := fun e => hbad (Or.inl e)
    have hle : (patternArgs argv).length ≤ MAX_PATTERNS := by
      by_contra hc
      exact hbad (Or.inr (by omega))
    obtain ⟨c1, h1, h2⟩ := (parse_args_spec argv).2 hne hle
    rw [h1] at h
    cases h
    exact ⟨h2, by rw [h2]; exact hle⟩

theorem occurs_once {α : Type} [DecidableEq α] : ∀ (l : List α) (a : α), l.Nodup → a ∈ l →
    (l.filter fun k => decide (k = a)).length = 1 := by
  intro l
  induction l with
  | nil => intro a _ h; simp at h
  | cons x xs ih =>
    intro a hnd ha
    obtain ⟨hx, hxs⟩ := List.nodup_cons.mp hnd
    by_cases hax : x = a
    · subst hax
      have : xs.filter (fun k => decide (k = x)) = [] := by
        rw [List.filter_eq_nil_iff]
        intro k hk
        simp only [decide_eq_true_eq]
        rintro rfl
        exact hx hk
      simp [List.filter_cons, this]
    · have ha' : a ∈ xs := by
        rcases List.mem_cons.mp ha with h | h
        · exact absurd h.symm hax
        · exact h
      simp [List.filter_cons, hax, ih a hxs ha']

/-- After a start of `main` that reaches the supervisor loop, the process ids
`broadcast_signal` sends to are those of the children created. -/
theorem targets_after_start (daemon_ok : Bool) (fork : Nat → Int) (argv : List CStr) (s0 : Sup)
    (hstart : main_start daemon_ok fork argv = Start.supervising s0) :
    s0.targets = (forkCalls s0.log).map Prod.fst := by
  have hstart0 := hstart
  unfold main_start at hstart
  cases hc : parse_args argv with
  | error status => rw [hc] at hstart; cases hstart
  | ok c =>
    rw [hc] at hstart
    cases daemon_ok with
    | false => simp at hstart
    | true =>
      simp only [Bool.not_true, Bool.false_eq_true, if_false] at hstart
      have hpos := spawn_loop_positive fork c.patterns 0 _ s0 hstart
      obtain ⟨_, hlen⟩ := parse_args_ok argv c hc
      obtain ⟨s, h1, h2, h3, h4⟩ := main_start_supervising fork argv c hc hlen
        (fun i hi => by simpa using hpos i hi)
      rw [hstart0] at h1
      cases h1
      rw [h2, forkCalls_append, forkCalls_zipWith]
      simp only [forkCalls, List.nil_append]
      rw [map_fst_zipWith fork _ _ (by simp), Sup.targets, h3]
      have hmap : (List.range c.patterns.length).map (fun i => s0.children.getD i 0) =
          (List.range c.patterns.length).map fork := by
        apply List.map_congr_left
        intro j hj
        exact h4 j (List.mem_range.mp hj)
      rw [hmap, List.filter_eq_self]
      intro pid hpid
      obtain ⟨j, hj, rfl⟩ := List.mem_map.mp hpid
      simpa using hpos j (List.mem_range.mp hj)

/-- A turn of the supervisor loop adds no `kill` call after its relays and
leaves both notifications as the relays left them, whether it runs to its end
or is suspended in `wait`. -/
theorem tick_after_relay (pick junk : Nat) (s : Sup) :
    killCalls (tick pick junk s).state.log = killCalls (relay s).log ∧
    (tick pick junk s).state.restart_scan = (relay s).restart_scan ∧
    (tick pick junk s).state.stop_scan = (relay s).stop_scan := by
  unfold tick reap wait
  generalize relay s = t
  cases hc : t.child_terminated with
  | false => simp [Turn.state, killCalls_append, killCalls]
  | true =>
    cases hz : t.zombies with
    | nil =>
      cases hl : t.live.isEmpty <;>
        simp [hz, hl, Turn.state, killCalls_append, killCalls]
    | cons z zs => simp [hz, Turn.state, killCalls_append, killCalls]

/-- A turn of the supervisor loop runs to its end unless the exit notification
is pending while children run and none has terminated. -/
theorem tick_completes (pick junk : Nat) (s : Sup)
    (h : s.child_terminated = false ∨ s.zombies ≠ [] ∨ s.live = []) :
    ∃ t, tick pick junk s = Turn.done t := by
  obtain ⟨_, _, _, hct, hzo, _, _, _, hli⟩ := relay_spec s
  unfold tick reap wait
  rw [hct, hzo, hli]
  cases hc : s.child_terminated with
  | false => exact ⟨_, rfl⟩
  | true =>
    cases hz : s.zombies with
    | cons z zs => exact ⟨_, rfl⟩
    | nil =>
      rcases h with h | h | h
      · rw [hc] at h; cases h
      · exact absurd hz h
      · rw [h]; exact ⟨_, rfl⟩

/-- C7. For every supervisor state after a start that created the workers (the
globals `children` and `num_patterns` are never written afterwards) and
whichever child `wait` would pick, one turn of the supervisor loop has made
these `kill` calls and no other, whether it ran to its end or is suspended in
`wait` afterwards: when the restart notification is pending, SIGUSR1 to each
worker created, then, when the stop notification is pending, SIGUSR2 to each
worker created; with neither pending, none. Both notifications are clear
afterwards, and each worker is sent to exactly once per broadcast (process ids
of children being distinct). The turn runs to its end unless the exit
notification is pending while workers run and none has terminated. -/
theorem tick_relays_to_every_worker_once (daemon_ok : Bool) (fork : Nat → Int)
    (argv : List CStr) (s0 s : Sup) (pick junk : Nat)
    (hstart : main_start daemon_ok fork argv = Start.supervising s0)
    (hchildren : s.children = s0.children) (hnum : s.num_patterns = s0.num_patterns)
    (hdistinct : ((forkCalls s0.log).map Prod.fst).Nodup) :
    killCalls (tick pick junk s).state.log = killCalls s.log ++
      (if s.restart_scan then
        ((forkCalls s0.log).map Prod.fst).map fun pid => (pid, Sig.SIGUSR1) else []) ++
      (if s.stop_scan then
        ((forkCalls s0.log).map Prod.fst).map fun pid => (pid, Sig.SIGUSR2) else []) ∧
    (tick pick junk s).state.restart_scan = false ∧
    (tick pick junk s).state.stop_scan = false ∧
    (∀ (sig : Sig) (w : Int), w ∈ (forkCalls s0.log).map Prod.fst →
      ((((forkCalls s0.log).map Prod.fst).map fun pid => (pid, sig)).filter
        fun call => decide (call = (w, sig))).length = 1) ∧
    ((s.child_terminated = false ∨ s.zombies ≠ [] ∨ s.live = []) →
      ∃ t, tick pick junk s = Turn.done t) := by
  have htargets : s.targets = (forkCalls s0.log).map Prod.fst := by
    rw [← targets_after_start daemon_ok fork argv s0 hstart, Sup.targets, Sup.targets,
      hchildren, hnum]
  obtain ⟨hlog, hr, hs, _⟩ := relay_spec s
  obtain ⟨hk, hr2, hs2⟩ := tick_after_relay pick junk s
  refine ⟨?_, by rw [hr2, hr], by rw [hs2, hs], ?_, tick_completes pick junk s⟩
  · rw [hk, hlog, htargets]
    generalize (forkCalls s0.log).map Prod.fst = ws
    cases s.restart_scan <;> cases s.stop_scan <;>
      simp [killCalls_append, killCalls, killCalls_kills]
  · intro sig w hw
    apply occurs_once
    · exact hdistinct.map (fun a b hab => by simpa using hab)
    · exact List.mem_map.mpr ⟨w, hw, rfl⟩

/-- After the start on `demon log tmp` with children 101 and 102, a turn with
the restart notification pending sends SIGUSR1 to 101 and to 102, once each,
and clears the notification; with the stop notification pending as well it
then sends SIGUSR2 to both; with neither it sends nothing. A turn suspended in
`wait` has sent its signals all the same. -/
theorem tick_relays_to_every_worker_once_witness :
    main_start true samplePids ["demon".toList, "log".toList, "tmp".toList] =
      Start.supervising sampleSup ∧
    ((forkCalls sampleSup.log).map Prod.fst).Nodup ∧
    killCalls (tick 0 0 { sampleSup with restart_scan := true }).state.log =
      killCalls ({ sampleSup with restart_scan := true } : Sup).log ++
      (if ({ sampleSup with restart_scan := true } : Sup).restart_scan then
        ((forkCalls sampleSup.log).map Prod.fst).map fun pid => (pid, Sig.SIGUSR1) else []) ++
      (if ({ sampleSup with restart_scan := true } : Sup).stop_scan then
        ((forkCalls sampleSup.log).map Prod.fst).map fun pid => (pid, Sig.SIGUSR2) else []) ∧
    (tick 0 0 { sampleSup with restart_scan := true }).completed.map
      (fun t => (killCalls t.log, t.restart_scan, t.stop_scan)) =
      some ([(101, Sig.SIGUSR1), (102, Sig.SIGUSR1)], false, false) ∧
    (tick 0 0 { sampleSup with restart_scan := true, stop_scan := true }).completed.map
      (fun t => (killCalls t.log, t.restart_scan, t.stop_scan)) =
      some ([(101, Sig.SIGUSR1), (102, Sig.SIGUSR1), (101, Sig.SIGUSR2), (102, Sig.SIGUSR2)],
        false, false) ∧
    (tick 0 0 sampleSup).completed.map (fun t => killCalls t.log) = some [] ∧
    tick 0 0 { sampleSup with stop_scan := true, child_terminated := true } =
      Turn.blocked
        { sampleSup with
          child_terminated := true,
          log := sampleSup.log ++ [Event.relaying Sig.SIGUSR2, Event.kill 101 Sig.SIGUSR2,
            Event.kill 102 Sig.SIGUSR2] } :=
  ⟨by decide, by decide,
    (tick_relays_to_every_worker_once true samplePids
      ["demon".toList, "log".toList, "tmp".toList] sampleSup
      { sampleSup with restart_scan := true } 0 0 (by decide) rfl rfl (by decide)).1,
    by decide, by decide, by decide, by decide⟩

theorem reapedPids_relay (s : Sup) : reapedPids (relay s).log = reapedPids s.log := by
  rw [(relay_spec s).1]
  cases s.restart_scan <;> cases s.stop_scan <;>
    simp [reapedPids_append, reapedPids, reapedPids_kills]

theorem length_eraseIdx_lt (zs : List (Int × Nat)) (z : Int × Nat) (pick : Nat) :
    ((z :: zs).eraseIdx (pick % (zs.length + 1))).length = zs.length := by
  rw [List.length_eraseIdx]
  have : pick % (zs.length + 1) < zs.length + 1 := Nat.mod_lt _ (Nat.succ_pos _)
  simp [this]

/-- A turn of the supervisor loop with the exit notification pending and
terminated children to wait for: one of them is reaped, whichever `wait` picks,
and the notification is cleared. -/
theorem tick_reaps_one (pick junk : Nat) (s : Sup) (z : Int × Nat) (zs : List (Int × Nat))
    (hc : s.child_terminated = true) (hz : s.zombies = z :: zs) :
    ∃ t, tick pick junk s = Turn.done t ∧
      (reapedPids t.log).length = (reapedPids s.log).length + 1 ∧
      t.zombies.length = zs.length ∧ t.child_terminated = false := by
  obtain ⟨_, _, _, hct, hzo, _, _, _, _⟩ := relay_spec s
  have hrp := reapedPids_relay s
  unfold tick reap wait
  rw [hct, hc, hzo, hz]
  refine ⟨_, rfl, ?_, ?_, rfl⟩
  · simp [reapedPids_append, reapedPids, hrp]
  · exact length_eraseIdx_lt zs z pick

/-- A turn of the supervisor loop with no exit notification pending reaps
nothing, however many terminated children wait. -/
theorem tick_reaps_none (pick junk : Nat) (s : Sup) (hc : s.child_terminated = false) :
    ∃ t, tick pick junk s = Turn.done t ∧ reapedPids t.log = reapedPids s.log ∧
      t.zombies = s.zombies ∧ t.child_terminated = false := by
  obtain ⟨_, _, _, hct, hzo, _, _, _, _⟩ := relay_spec s
  have hrp := reapedPids_relay s
  unfold tick reap
  rw [hct, hc]
  refine ⟨_, rfl, ?_, hzo, ?_⟩
  · simp [reapedPids_append, reapedPids, hrp]
  · simp [hct, hc]

theorem ticks_reap_none : ∀ (turns : List (Nat × Nat)) (s : Sup), s.child_terminated = false →
    ∃ u, ticks turns s = Turn.done u ∧ reapedPids u.log = reapedPids s.log ∧
      u.zombies = s.zombies ∧ u.child_terminated = false := by
  intro turns
  induction turns with
  | nil => intro s hc; exact ⟨s, rfl, rfl, rfl, hc⟩
  | cons turn rest ih =>
    intro s hc
    obtain ⟨pick, junk⟩ := turn
    obtain ⟨t, h1, h2, h3, h4⟩ := tick_reaps_none pick junk s hc
    obtain ⟨u, k1, k2, k3, k4⟩ := ih t h4
    exact ⟨u, by simp [ticks, h1, k1], by rw [k2, h2], by rw [k3, h3], k4⟩

/-- C6 fails on the code. The workers 101 and 102 both exit between two turns
of the supervisor loop, which leaves one exit notification. Whichever of the
two `wait` picks, the next turn reaps that one and clears the notification; the
turns after it, however many, find it clear and never call `wait`, so the other
worker stays unreaped, where the claim has it reaped on a subsequent turn. -/
theorem second_exit_stays_unreaped (pick junk : Nat) (turns : List (Nat × Nat)) :
    main_start true samplePids ["demon".toList, "log".toList, "tmp".toList] =
      Start.supervising sampleSup ∧
    (∃ u, ticks ((pick, junk) :: turns) (child_exit 102 0 (child_exit 101 0 sampleSup)) =
        Turn.done u ∧
      (reapedPids u.log).length = 1 ∧ u.zombies.length = 1 ∧ u.child_terminated = false) ∧
    (ticks [(0, 0), (0, 0), (0, 0)] (child_exit 102 0 (child_exit 101 0 sampleSup))).completed.map
      (fun u => (reapedPids u.log, u.zombies, u.child_terminated)) =
      some ([101], [(102, 0)], false) ∧
    (ticks [(1, 0), (0, 0), (0, 0)] (child_exit 102 0 (child_exit 101 0 sampleSup))).completed.map
      (fun u => (reapedPids u.log, u.zombies, u.child_terminated)) =
      some ([102], [(101, 0)], false) := by
  refine ⟨by decide, ?_, by decide, by decide⟩
  obtain ⟨t, h1, h2, h3, h4⟩ := tick_reaps_one pick junk
    (child_exit 102 0 (child_exit 101 0 sampleSup)) (101, 0) [(102, 0)] rfl rfl
  obtain ⟨u, k1, k2, k3, k4⟩ := ticks_reap_none turns t h4
  refine ⟨u, by simp only [ticks, h1, k1], ?_, ?_, k4⟩
  · rw [k2, h2]; rfl
  · rw [k3, h3]; rfl


end Demon
